import Mathlib

/-!
# Verification of the FlowShop greedy list-scheduling engine

Shallow embedding of `src/flowshop.py` (hybrid flow-shop scheduler).
Python dicts are modelled as association lists (`List (String × _)`) which
preserve insertion order, matching Python's ordered-dict semantics; dict
key misses (Python `KeyError`) and list index misses (Python `IndexError`)
are modelled with an explicit error monad (`Except SchedError`); the
Python `float('inf')` initial value of the per-stage minimum is modelled
with `ℕ∞ = WithTop ℕ`.  Mutation of `Machine` and `Job` objects is
modelled by explicit state passing; because Python stores *references* in
`Machine.jobs`, the job appended to a machine is stored here with its
fresh timing record included (in Python the record is written one line
after the append, through the same object).
-/

/-- Errors of the Python code: `ValueError` for an unknown dispatch rule
(raised in `schedule_all_jobs`), `KeyError` for a missing dict entry and
`IndexError` for an out-of-range list access. -/
inductive SchedError where
  | invalidRule
  | keyError
  | indexError
deriving DecidableEq, Repr

def exceptDecEq {ε α : Type} [DecidableEq ε] [DecidableEq α] :
    (a b : Except ε α) → Decidable (a = b)
  | .ok x, .ok y =>
    if h : x = y then .isTrue (congrArg Except.ok h)
    else .isFalse fun hc => h (Except.ok.inj hc)
  | .error x, .error y =>
    if h : x = y then .isTrue (congrArg Except.error h)
    else .isFalse fun hc => h (Except.error.inj hc)
  | .ok _, .error _ => .isFalse fun hc => Except.noConfusion hc
  | .error _, .ok _ => .isFalse fun hc => Except.noConfusion hc

instance {ε α : Type} [DecidableEq ε] [DecidableEq α] : DecidableEq (Except ε α) :=
  exceptDecEq

/-- The timing record written into `job.operation_times[operation_id]`:
the Python dict `{'start': ..., 'end': ..., 'setup_time': ...}`. -/
structure Timing where
  start : Nat
  endTime : Nat
  setup_time : Nat
deriving DecidableEq, Repr

/-- `class Job` (flowshop.py lines 6-12).  The unused fields `start_time`
and `completion_time` (never read nor written after `__init__`) are
omitted. -/
structure Job where
  type : String
  id : Nat
  operation_times : List (String × Timing)
deriving DecidableEq, Repr

/-- `class Machine` (flowshop.py lines 14-19). -/
structure Machine where
  machine_id : String
  allowed_jobs : List String
  jobs : List Job
  cumulative_time : Nat
deriving DecidableEq, Repr

/-- `class Operation` (flowshop.py lines 21-26): a stage owning its
machines, in the declaration order of the configuration dict. -/
structure Operation where
  operation_id : String
  machines : List Machine
deriving DecidableEq, Repr

/-- `processing_time` table: stage id → machine id → list of durations
(1 element when all types share a duration, otherwise index 0 for type
A and index 1 for every other type). -/
abbrev ProcTable := List (String × List (String × List Nat))

/-- `setup_time` table: previous job type → next job type → duration. -/
abbrev SetupTable := List (String × List (String × Nat))

/-- Python dict assignment `d[k] = v`: replace in place if the key is
present, else append (insertion order preserved). -/
def ainsert (k : String) (v : Timing) : List (String × Timing) → List (String × Timing)
  | [] => [(k, v)]
  | (k', v') :: rest => if k' == k then (k, v) :: rest else (k', v') :: ainsert k v rest

/-- Two-level dict lookup `t[a][b]`. -/
def lookup2 (t : SetupTable) (a b : String) : Option Nat :=
  (List.lookup a t).bind (List.lookup b)

/-- `job.operation_times[opId]` as an optional lookup. -/
def timingAt (j : Job) (opId : String) : Option Timing :=
  List.lookup opId j.operation_times

/-- `create_operations` (flowshop.py lines 28-32): one `Operation` per
stage of the configuration, machines in declaration order. -/
def create_operations (allowed_machines : List (String × List (String × List String))) :
    List Operation :=
  allowed_machines.map fun om =>
    { operation_id := om.1, machines := om.2.map fun ma => ⟨ma.1, ma.2, [], 0⟩ }

/-- Helper for `create_job_list`: jobs of one type with consecutive ids. -/
def jobsOfType (job_type : String) (firstId count : Nat) : List Job :=
  (List.range count).map fun k => ⟨job_type, firstId + k, []⟩

/-- `create_job_list` (flowshop.py lines 34-41): one `Job` per demand
unit, ids assigned sequentially from 1 in demand-table order. -/
def create_job_list (demand : List (String × Nat)) : List Job :=
  (demand.foldl (fun (acc : List Job × Nat) tc =>
    (acc.1 ++ jobsOfType tc.1 acc.2 tc.2, acc.2 + tc.2)) ([], 1)).1

/-- The duration picked from a machine's duration list (flowshop.py
lines 47-51 and the identical lines 123-127): the single element when
the list has length 1, else element 0 for type A and element 1 for every
other type.  `none` models Python's `IndexError` on a too-short list. -/
def timeFor (job_type : String) (machine_times : List Nat) : Option Nat :=
  if machine_times.length == 1 then machine_times[0]?
  else if job_type == "A" then machine_times[0]? else machine_times[1]?

/-- Inner loop of `calculate_total_processing_time`: the running minimum
over a stage's machine entries, starting from `float('inf')` (here `⊤`). -/
def stageMin (job_type : String) : List (String × List Nat) → ℕ∞ → Except SchedError ℕ∞
  | [], mn => .ok mn
  | (_, ts) :: rest, mn =>
    match timeFor job_type ts with
    | some t => stageMin job_type rest (min mn (t : ℕ∞))
    | none => .error .indexError

/-- Outer loop of `calculate_total_processing_time`: sum of the per-stage
minima over the stages of the duration table, in table order. -/
def calcTotalGo (job_type : String) : ProcTable → ℕ∞ → Except SchedError ℕ∞
  | [], acc => .ok acc
  | (_, machines) :: rest, acc =>
    match stageMin job_type machines ⊤ with
    | .ok mn => calcTotalGo job_type rest (acc + mn)
    | .error e => .error e

/-- `calculate_total_processing_time` (flowshop.py lines 43-54). -/
def calculate_total_processing_time (job_type : String) (pt : ProcTable) :
    Except SchedError ℕ∞ :=
  calcTotalGo job_type pt 0

/-- The `job_processing_times` list built by both dispatch rules
(flowshop.py lines 57-60 and 71-74): each job paired with its total
processing time. -/
def jobTotals (pt : ProcTable) : List Job → Except SchedError (List (Job × ℕ∞))
  | [] => .ok []
  | j :: rest =>
    match calculate_total_processing_time j.type pt with
    | .ok t =>
      match jobTotals pt rest with
      | .ok pairs => .ok ((j, t) :: pairs)
      | .error e => .error e
    | .error e => .error e

/-- `apply_SPT_rule` (flowshop.py lines 56-68): stable ascending sort of
the (job, total) pairs by total.  Python's `sorted` is a stable sort;
it is modelled by `List.insertionSort`, which is stable for the same
comparison. -/
def apply_SPT_rule (jobs : List Job) (pt : ProcTable) : Except SchedError (List Job) :=
  match jobTotals pt jobs with
  | .ok pairs => .ok ((List.insertionSort (fun a b => a.2 ≤ b.2) pairs).map Prod.fst)
  | .error e => .error e

/-- `apply_LPT_rule` (flowshop.py lines 70-82): stable sort by the
negated key `-x[1]`, i.e. stable *descending* sort by total. -/
def apply_LPT_rule (jobs : List Job) (pt : ProcTable) : Except SchedError (List Job) :=
  match jobTotals pt jobs with
  | .ok pairs => .ok ((List.insertionSort (fun a b => b.2 ≤ a.2) pairs).map Prod.fst)
  | .error e => .error e

/-- `get_available_machines_for_job` (flowshop.py lines 84-89).  The
machines are paired with their position in `operation.machines` to model
Python object identity (the selected object is mutated in place). -/
def get_available_machines_for_job (job : Job) (operation : Operation) :
    List (Nat × Machine) :=
  operation.machines.enum.filter fun im => im.2.allowed_jobs.contains job.type

/-- `find_machine_with_min_time` (flowshop.py lines 91-101): running
minimum of `max(machine.cumulative_time, prev_operation_end)` with the
initial best `float('inf')` modelled by the `none` accumulator; the
strict `<` keeps the first machine on ties. -/
def find_machine_with_min_time (available_machines : List (Nat × Machine))
    (prev_operation_end : Nat) : Option ((Nat × Machine) × Nat) :=
  available_machines.foldl (fun acc im =>
    let possible_start_time := max im.2.cumulative_time prev_operation_end
    match acc with
    | none => some (im, possible_start_time)
    | some (_, best) => if possible_start_time < best then some (im, possible_start_time) else acc)
    none

/-- flowshop.py lines 116-119: zero setup for the first job on a
machine, else the setup-table entry for the type transition from the
machine's last assigned job. -/
def setupFor (st : SetupTable) (m : Machine) (jobType : String) : Except SchedError Nat :=
  match m.jobs.getLast? with
  | none => .ok 0
  | some prevJob =>
    match lookup2 st prevJob.type jobType with
    | some s => .ok s
    | none => .error .keyError

/-- flowshop.py line 123: `processing_time[operation_id][machine_id]`. -/
def lookupTimes (pt : ProcTable) (opId mId : String) : Except SchedError (List Nat) :=
  match (List.lookup opId pt).bind (List.lookup mId) with
  | some ts => .ok ts
  | none => .error .keyError

/-- `assign_job_to_machine` (flowshop.py lines 103-139).  `.ok none`
models the Python `return None` when no machine is available.  The start
time returned by `find_machine_with_min_time` is discarded, exactly as
the Python code overwrites it on line 121 with
`max(cumulative_time + setup_duration, prev_operation_end)`. -/
def assign_job_to_machine (job : Job) (operation : Operation) (pt : ProcTable)
    (st : SetupTable) (prev_operation_end : Nat) :
    Except SchedError (Option (Operation × Job)) :=
  match find_machine_with_min_time (get_available_machines_for_job job operation)
      prev_operation_end with
  | none => .ok none
  | some ((idx, selected), _) =>
    match setupFor st selected job.type with
    | .error e => .error e
    | .ok setup_duration =>
      let start_time := max (selected.cumulative_time + setup_duration) prev_operation_end
      match lookupTimes pt operation.operation_id selected.machine_id with
      | .error e => .error e
      | .ok machine_times =>
        match timeFor job.type machine_times with
        | none => .error .indexError
        | some job_processing_time =>
          let end_time := start_time + job_processing_time
          let rec0 : Timing := ⟨start_time, end_time, setup_duration⟩
          let job' : Job :=
            { job with operation_times := ainsert operation.operation_id rec0 job.operation_times }
          let selected' : Machine :=
            { selected with jobs := selected.jobs ++ [job'], cumulative_time := end_time }
          .ok (some ({ operation with machines := operation.machines.set idx selected' }, job'))

/-- Inner loop of `schedule_all_jobs` (flowshop.py lines 153-159): one
job through the stage list, threading `prev_end_time` which is updated
only on a successful assignment (read back from the record just written,
line 157). -/
def scheduleJobOps (pt : ProcTable) (st : SetupTable) :
    Job → Nat → List Operation → Except SchedError (List Operation × Job)
  | job, _, [] => .ok ([], job)
  | job, prevEnd, operation :: rest =>
    match assign_job_to_machine job operation pt st prevEnd with
    | .error e => .error e
    | .ok none =>
      match scheduleJobOps pt st job prevEnd rest with
      | .ok (rest', job') => .ok (operation :: rest', job')
      | .error e => .error e
    | .ok (some (op', job')) =>
      match timingAt job' operation.operation_id with
      | none => .error .keyError
      | some t =>
        match scheduleJobOps pt st job' t.endTime rest with
        | .ok (rest', job'') => .ok (op' :: rest', job'')
        | .error e => .error e

/-- Outer loop of `schedule_all_jobs` (flowshop.py line 152): the sorted
jobs in dispatch order, each driven through all stages. -/
def scheduleJobsLoop (pt : ProcTable) (st : SetupTable) :
    List Operation → List Job → Except SchedError (List Operation × List Job)
  | ops, [] => .ok (ops, [])
  | ops, j :: js =>
    match scheduleJobOps pt st j 0 ops with
    | .error e => .error e
    | .ok (ops', j') =>
      match scheduleJobsLoop pt st ops' js with
      | .error e => .error e
      | .ok (ops'', js') => .ok (ops'', j' :: js')

/-- Python's lexicographic (code-point) comparison of character lists,
used by `sorted(operations, key=lambda x: x.operation_id)`. -/
def charListLe : List Char → List Char → Bool
  | [], _ => true
  | _ :: _, [] => false
  | a :: as, b :: bs =>
    if a.toNat < b.toNat then true
    else if b.toNat < a.toNat then false
    else charListLe as bs

/-- Python's string comparison `s1 <= s2` (lexicographic by code point). -/
def strLe (a b : String) : Bool := charListLe a.data b.data

/-- `schedule_all_jobs` (flowshop.py lines 141-159): dispatch-rule
selection (a `ValueError` for anything other than SPT/LPT), stages
sorted by `operation_id`, then the greedy two-level loop.  Returns the
final stage/machine state and the jobs in dispatch order. -/
def schedule_all_jobs (jobs : List Job) (operations : List Operation) (pt : ProcTable)
    (st : SetupTable) (rule : String) : Except SchedError (List Operation × List Job) :=
  match (if rule == "SPT" then apply_SPT_rule jobs pt
         else if rule == "LPT" then apply_LPT_rule jobs pt
         else .error .invalidRule) with
  | .error e => .error e
  | .ok sorted_jobs =>
    let operations_order :=
      List.insertionSort (fun a b : Operation => strLe a.operation_id b.operation_id = true)
        operations
    scheduleJobsLoop pt st operations_order sorted_jobs

/-- The makespan read off by `create_gantt_chart` (flowshop.py lines
165-166): the maximum cumulative-available-time over all machines of all
stages. -/
def makespan (operations : List Operation) : Nat :=
  ((operations.map fun op => op.machines.map Machine.cumulative_time).flatten).foldl max 0

/-! ## Spec-side definitions used to compare the code with the claims -/

/-- The candidate start described by spec §4.3 step 3 (claim C1): the
*setup-inclusive* quantity
`max(cumulative-available-time + setup owed, earliest_permitted_start)`,
with zero setup when the machine holds no job. -/
def claimedCandidateStart (st : SetupTable) (jobType : String) (earliest : Nat)
    (m : Machine) : Nat :=
  max (m.cumulative_time +
    (match m.jobs.getLast? with
     | none => 0
     | some p => (lookup2 st p.type jobType).getD 0)) earliest

/-- The minimal setup-inclusive candidate start over the eligible
machines, as claim C1 describes the selection. -/
def claimedMinStart (st : SetupTable) (jobType : String) (earliest : Nat)
    (ms : List Machine) : Option Nat :=
  ((ms.filter fun m => m.allowed_jobs.contains jobType).map
    (claimedCandidateStart st jobType earliest)).min?

/-- The dispatch key described by claim C4: per stage, the minimum
duration for the job's type across the machines *eligible* for that
type at the stage. -/
def claimedTotalProcessingTime (jobType : String) (ops : List Operation) (pt : ProcTable) :
    ℕ∞ :=
  ops.foldl (fun total op =>
    total + ((op.machines.filter fun m => m.allowed_jobs.contains jobType).foldl
      (fun mn m =>
        min mn (match (List.lookup op.operation_id pt).bind (List.lookup m.machine_id) with
          | some ts =>
            match timeFor jobType ts with
            | some t => (t : ℕ∞)
            | none => ⊤
          | none => ⊤)) ⊤)) 0

/-- Adding one unit of demand for a job type (claim C7): dict-update
semantics, incremented in place when the key exists, appended otherwise. -/
def bumpDemand (demand : List (String × Nat)) (t : String) : List (String × Nat) :=
  match demand with
  | [] => [(t, 1)]
  | (k, c) :: rest => if k == t then (k, c + 1) :: rest else (k, c) :: bumpDemand rest t

/-- The makespan of a full scheduling run built from a demand table. -/
def runMakespan (demand : List (String × Nat))
    (am : List (String × List (String × List String))) (pt : ProcTable) (st : SetupTable)
    (rule : String) : Option Nat :=
  match schedule_all_jobs (create_job_list demand) (create_operations am) pt st rule with
  | .ok r => some (makespan r.1)
  | .error _ => none

/-! ## Association-list lemmas -/

theorem lookup_ainsert_self (k : String) (v : Timing) (l : List (String × Timing)) :
    List.lookup k (ainsert k v l) = some v := by
  induction l with
  | nil => simp [ainsert, List.lookup]
  | cons hd tl ih =>
    obtain ⟨k', v'⟩ := hd
    by_cases h : k' = k
    · simp [ainsert, h, List.lookup]
    · have hb : (k' == k) = false := beq_eq_false_iff_ne.mpr h
      have hb' : (k == k') = false := beq_eq_false_iff_ne.mpr (Ne.symm h)
      simp [ainsert, hb, List.lookup, hb', ih]

theorem lookup_ainsert_ne (s k : String) (v : Timing) (l : List (String × Timing))
    (h : s ≠ k) : List.lookup s (ainsert k v l) = List.lookup s l := by
  induction l with
  | nil => simp [ainsert, List.lookup, beq_eq_false_iff_ne.mpr h]
  | cons hd tl ih =>
    obtain ⟨k', v'⟩ := hd
    by_cases hk : k' = k
    · subst hk
      simp [ainsert, List.lookup, beq_eq_false_iff_ne.mpr h]
    · have hb : (k' == k) = false := beq_eq_false_iff_ne.mpr hk
      by_cases hs : s = k'
      · subst hs
        simp [ainsert, hb, List.lookup]
      · simp [ainsert, hb, List.lookup, beq_eq_false_iff_ne.mpr hs, ih]

/-! ## Claim C2: behaviour after an unschedulable stage -/

/-- Concrete three-stage configuration for claim C2: stage OP_2 has no
machine eligible for type A. -/
def c2AM : List (String × List (String × List String)) :=
  [("OP_1", [("M_1", ["A"])]), ("OP_2", [("M_X", [])]), ("OP_3", [("M_Y", ["A"])])]

def c2PT : ProcTable :=
  [("OP_1", [("M_1", [5])]), ("OP_2", [("M_X", [3])]), ("OP_3", [("M_Y", [2])])]

def c2ST : SetupTable := [("A", [("A", 0)])]

/-- Claim C2 is FALSE: after stage OP_2 fails (no eligible machine) the
job's earlier end time (5, from OP_1) is *not* discarded — stage OP_3
starts at 5, while the claim's `earliest_permitted_start = 0` convention
would have started it at 0 (third conjunct: the same assignment issued
with earliest 0 on the same fresh machine starts at 0). -/
theorem claim_C2_counterexample :
    (schedule_all_jobs (create_job_list [("A", 1)]) (create_operations c2AM) c2PT c2ST
        "SPT").map (fun r => r.2.map (fun j => timingAt j "OP_3")) =
      .ok [some ⟨5, 7, 0⟩] ∧
    (5 : Nat) ≠ 0 ∧
    (assign_job_to_machine ⟨"A", 1, []⟩ ⟨"OP_3", [⟨"M_Y", ["A"], [], 0⟩]⟩ c2PT c2ST 0).map
        (fun r => r.map fun x => timingAt x.2 "OP_3") = .ok (some (some ⟨0, 2, 0⟩)) := by
  refine ⟨by decide, by decide, by decide⟩

/-- Claim C2 amended: when the Machine Selector returns None at a stage,
the job keeps no timing record there and the *next* stage is attempted
with `earliest_permitted_start` unchanged from the value used at the
failed stage (the end of the last successfully scheduled earlier stage;
0 only when no earlier stage succeeded) — not reset to 0. -/
theorem claim_C2 (pt : ProcTable) (st : SetupTable) (job : Job) (prevEnd : Nat)
    (op : Operation) (rest : List Operation)
    (h : assign_job_to_machine job op pt st prevEnd = .ok none) :
    scheduleJobOps pt st job prevEnd (op :: rest) =
      (scheduleJobOps pt st job prevEnd rest).map (fun r => (op :: r.1, r.2)) := by
  simp only [scheduleJobOps, h]
  cases scheduleJobOps pt st job prevEnd rest <;> simp [Except.map]

/-- Witness for claim C2's amended theorem at a concrete failed stage. -/
theorem claim_C2_witness :
    scheduleJobOps c2PT c2ST ⟨"A", 1, []⟩ 5 [⟨"OP_2", [⟨"M_X", [], [], 0⟩]⟩] =
      (scheduleJobOps c2PT c2ST ⟨"A", 1, []⟩ 5 []).map
        (fun r => (⟨"OP_2", [⟨"M_X", [], [], 0⟩]⟩ :: r.1, r.2)) :=
  claim_C2 c2PT c2ST ⟨"A", 1, []⟩ 5 ⟨"OP_2", [⟨"M_X", [], [], 0⟩]⟩ [] (by decide)

/-! ## Claim C3: when is the configuration error raised -/

def c3AM : List (String × List (String × List String)) := [("OP_1", [("M_1", ["A"])])]

def c3PT : ProcTable := [("OP_1", [("M_1", [3, 6])])]

def c3ST : SetupTable := [("A", [("A", 0), ("B", 0)]), ("B", [("A", 0), ("B", 0)])]

/-- Claim C3 is FALSE: with a declared job type (B) for which the
eligibility table has no entry at stage OP_1 (a structurally missing
type/stage combination), the run does NOT fail with an
InvalidConfiguration error — it completes, job B simply has no timing
record. -/
theorem claim_C3_counterexample :
    (schedule_all_jobs (create_job_list [("A", 1), ("B", 1)]) (create_operations c3AM)
        c3PT c3ST "SPT").map (fun r => r.2.map Job.operation_times) =
      .ok [[("OP_1", ⟨0, 3, 0⟩)], []] := by
  decide

/-! ## Claim C7: makespan monotonicity in the demand -/

def c7AM : List (String × List (String × List String)) :=
  [("OP_1", [("M_1", ["A", "C", "B"]), ("M_2", ["C"])])]

def c7PT : ProcTable := [("OP_1", [("M_1", [1, 5]), ("M_2", [1, 5])])]

def c7ST : SetupTable :=
  [("A", [("A", 0), ("B", 0), ("C", 0)]),
   ("B", [("A", 0), ("B", 0), ("C", 0)]),
   ("C", [("A", 0), ("B", 100), ("C", 0)])]

def c7Demand : List (String × Nat) := [("C", 1), ("B", 1), ("A", 0)]

/-- Claim C7 is FALSE: adding one unit of type-A demand to `c7Demand`
drops the makespan from 110 to 6.  (The extra short type-A job is
dispatched first under SPT, occupies machine M_1, and thereby steers job
C to M_2, so that job B no longer pays the 100-unit C→B setup.) -/
theorem claim_C7_counterexample :
    runMakespan c7Demand c7AM c7PT c7ST "SPT" = some 110 ∧
    runMakespan (bumpDemand c7Demand "A") c7AM c7PT c7ST "SPT" = some 6 ∧
    ¬ (110 : Nat) ≤ 6 := by
  refine ⟨by decide, by decide, by decide⟩

/-- Claim C7 amended: makespan monotonicity does NOT hold for this
greedy list scheduler — increasing the demand of a single job type by
one unit can strictly decrease the makespan (a classical list-scheduling
anomaly).  Formally: the claimed universal monotonicity statement is
false. -/
theorem claim_C7 :
    ¬ (∀ (demand : List (String × Nat)) (am : List (String × List (String × List String)))
        (pt : ProcTable) (st : SetupTable) (rule t : String) (m1 m2 : Nat),
        runMakespan demand am pt st rule = some m1 →
        runMakespan (bumpDemand demand t) am pt st rule = some m2 → m1 ≤ m2) := by
  intro h
  have h110 : runMakespan c7Demand c7AM c7PT c7ST "SPT" = some 110 := by decide
  have h6 : runMakespan (bumpDemand c7Demand "A") c7AM c7PT c7ST "SPT" = some 6 := by decide
  exact absurd (h c7Demand c7AM c7PT c7ST "SPT" "A" 110 6 h110 h6) (by decide)

/-! ## Claim C1: machine selection and the start time -/

/-- Characterisation of the running-minimum fold of
`find_machine_with_min_time` from a seeded accumulator: the result pairs
some machine with its candidate `max(cumulative_time, p)`, is no worse
than the seed and than every list element, and is either the seed or a
strict improvement that also strictly beats every earlier element. -/
theorem find_go_spec (p : Nat) :
    ∀ (l : List (Nat × Machine)) (m0 : Nat × Machine),
      ∃ res : (Nat × Machine) × Nat,
        List.foldl (fun acc im =>
          let possible_start_time := max im.2.cumulative_time p
          match acc with
          | none => some (im, possible_start_time)
          | some (_, best) =>
            if possible_start_time < best then some (im, possible_start_time) else acc)
          (some (m0, max m0.2.cumulative_time p)) l = some res ∧
        res.2 = max res.1.2.cumulative_time p ∧
        res.2 ≤ max m0.2.cumulative_time p ∧
        (∀ x ∈ l, res.2 ≤ max x.2.cumulative_time p) ∧
        (res = (m0, max m0.2.cumulative_time p) ∨
          ∃ k, ∃ hk : k < l.length, res.1 = l.get ⟨k, hk⟩ ∧
            res.2 < max m0.2.cumulative_time p ∧
            ∀ j, ∀ hj : j < l.length, j < k →
              res.2 < max (l.get ⟨j, hj⟩).2.cumulative_time p) := by
  intro l
  induction l with
  | nil =>
    intro m0
    exact ⟨(m0, max m0.2.cumulative_time p), rfl, rfl, le_refl _, by simp, Or.inl rfl⟩
  | cons x xs ih =>
    intro m0
    by_cases h : max x.2.cumulative_time p < max m0.2.cumulative_time p
    · obtain ⟨res, hfold, hcand, hle, hall, hdisj⟩ := ih x
      refine ⟨res, ?_, hcand, le_of_lt (lt_of_le_of_lt hle h), ?_, ?_⟩
      · rw [List.foldl_cons]
        dsimp only
        rw [if_pos h]
        exact hfold
      · intro y hy
        rcases List.mem_cons.mp hy with hy | hy
        · exact hy ▸ hle
        · exact hall y hy
      · rcases hdisj with heq | ⟨k, hk, h1, h2, h3⟩
        · refine Or.inr ⟨0, by simp, ?_, ?_, ?_⟩
          · simpa using congrArg Prod.fst heq
          · rw [heq]; exact h
          · intro j hj hj0; omega
        · refine Or.inr ⟨k + 1, by simpa using Nat.succ_lt_succ hk, h1, lt_trans h2 h, ?_⟩
          intro j hj hjk
          cases j with
          | zero => exact h2
          | succ jj =>
            exact h3 jj (by simpa using Nat.lt_of_succ_lt_succ hj) (Nat.lt_of_succ_lt_succ hjk)
    · obtain ⟨res, hfold, hcand, hle, hall, hdisj⟩ := ih m0
      refine ⟨res, ?_, hcand, hle, ?_, ?_⟩
      · rw [List.foldl_cons]
        dsimp only
        rw [if_neg h]
        exact hfold
      · intro y hy
        rcases List.mem_cons.mp hy with hy | hy
        · exact hy ▸ le_trans hle (not_lt.mp h)
        · exact hall y hy
      · rcases hdisj with heq | ⟨k, hk, h1, h2, h3⟩
        · exact Or.inl heq
        · refine Or.inr ⟨k + 1, by simpa using Nat.succ_lt_succ hk, h1, h2, ?_⟩
          intro j hj hjk
          cases j with
          | zero => exact lt_of_lt_of_le h2 (not_lt.mp h)
          | succ jj =>
            exact h3 jj (by simpa using Nat.lt_of_succ_lt_succ hj) (Nat.lt_of_succ_lt_succ hjk)

/-- `find_machine_with_min_time` on a nonempty machine list returns the
first machine attaining the minimal `max(cumulative_time, prev_end)`
(flowshop.py lines 91-101): the selected machine's candidate is a global
minimum and strictly beats every earlier machine's candidate. -/
theorem find_machine_with_min_time_spec (l : List (Nat × Machine)) (p : Nat) (hne : l ≠ []) :
    ∃ k, ∃ hk : k < l.length,
      find_machine_with_min_time l p =
        some (l.get ⟨k, hk⟩, max (l.get ⟨k, hk⟩).2.cumulative_time p) ∧
      (∀ x ∈ l, max (l.get ⟨k, hk⟩).2.cumulative_time p ≤ max x.2.cumulative_time p) ∧
      ∀ j, ∀ hj : j < l.length, j < k →
        max (l.get ⟨k, hk⟩).2.cumulative_time p < max (l.get ⟨j, hj⟩).2.cumulative_time p := by
  cases l with
  | nil => exact absurd rfl hne
  | cons x xs =>
    obtain ⟨res, hfold, hcand, hle, hall, hdisj⟩ := find_go_spec p xs x
    have hfind : find_machine_with_min_time (x :: xs) p = some res := by
      unfold find_machine_with_min_time
      rw [List.foldl_cons]
      exact hfold
    rcases hdisj with heq | ⟨k, hk, h1, h2, h3⟩
    · refine ⟨0, by simp, ?_, ?_, ?_⟩
      · rw [hfind, heq]; rfl
      · intro y hy
        rcases List.mem_cons.mp hy with hy | hy
        · subst hy; simp
        · have := hall y hy
          rw [heq] at this
          simpa using this
      · intro j hj hj0; omega
    · refine ⟨k + 1, by simpa using Nat.succ_lt_succ hk, ?_, ?_, ?_⟩
      · have hres : res = ((x :: xs).get ⟨k + 1, by simpa using Nat.succ_lt_succ hk⟩, res.2) := by
          refine Prod.ext ?_ rfl
          simpa using h1
        rw [hfind, hres, hcand, h1]
        rfl
      · intro y hy
        have hres2 : res.2 =
            max ((x :: xs).get ⟨k + 1, by simpa using Nat.succ_lt_succ hk⟩).2.cumulative_time p := by
          rw [hcand, h1]; rfl
        rcases List.mem_cons.mp hy with hy | hy
        · rw [← hres2]; subst hy; exact le_of_lt h2
        · rw [← hres2]; exact hall y hy
      · intro j hj hjk
        have hres2 : res.2 =
            max ((x :: xs).get ⟨k + 1, by simpa using Nat.succ_lt_succ hk⟩).2.cumulative_time p := by
          rw [hcand, h1]; rfl
        rw [← hres2]
        cases j with
        | zero => exact h2
        | succ jj =>
          exact h3 jj (by simpa using Nat.lt_of_succ_lt_succ hj) (Nat.lt_of_succ_lt_succ hjk)

/-- Full characterisation of a successful assignment
(`assign_job_to_machine = .ok (some _)`): the components it is built
from, in particular the recorded start time
`max(selected.cumulative_time + setup, prev_operation_end)`. -/
theorem assign_ok_some_extract (job : Job) (op : Operation) (pt : ProcTable)
    (st : SetupTable) (p : Nat) (o' : Operation) (j' : Job)
    (h : assign_job_to_machine job op pt st p = .ok (some (o', j'))) :
    ∃ idx selected b setup ts d,
      find_machine_with_min_time (get_available_machines_for_job job op) p =
        some ((idx, selected), b) ∧
      setupFor st selected job.type = .ok setup ∧
      lookupTimes pt op.operation_id selected.machine_id = .ok ts ∧
      timeFor job.type ts = some d ∧
      j' = Job.mk job.type job.id (ainsert op.operation_id
        (Timing.mk (max (selected.cumulative_time + setup) p)
          (max (selected.cumulative_time + setup) p + d) setup) job.operation_times) ∧
      o' = Operation.mk op.operation_id (op.machines.set idx
        (Machine.mk selected.machine_id selected.allowed_jobs (selected.jobs ++ [j'])
          (max (selected.cumulative_time + setup) p + d))) := by
  unfold assign_job_to_machine at h
  rcases hfind : find_machine_with_min_time (get_available_machines_for_job job op) p with
    _ | ⟨⟨idx, selected⟩, b⟩
  · rw [hfind] at h; exact absurd h (by simp)
  rw [hfind] at h
  dsimp only at h
  rcases hsetup : setupFor st selected job.type with e | setup
  · rw [hsetup] at h; exact absurd h (by simp)
  rw [hsetup] at h
  dsimp only at h
  rcases hts : lookupTimes pt op.operation_id selected.machine_id with e | ts
  · rw [hts] at h; exact absurd h (by simp)
  rw [hts] at h
  dsimp only at h
  rcases htf : timeFor job.type ts with _ | d
  · rw [htf] at h; exact absurd h (by simp)
  rw [htf] at h
  dsimp only at h
  have h2 := Option.some.inj (Except.ok.inj h)
  have ho := congrArg Prod.fst h2
  have hjob := congrArg Prod.snd h2
  dsimp only at ho hjob
  refine ⟨idx, selected, b, setup, ts, d, rfl, hsetup, hts, htf, hjob.symm, ?_⟩
  rw [← ho, ← hjob]

/-- Claim C1 amended: the Machine Selector chooses, among eligible
machines, the first one minimising the *setup-exclusive* candidate
`max(cumulative-available-time, earliest_permitted_start)` (ties broken
by enumeration order in the stage definition); the *recorded* start time
then equals `max(chosen machine's cumulative-available-time + setup owed
by the chosen machine, earliest_permitted_start)` — the setup duration
is charged after the choice, but does not participate in it. -/
theorem claim_C1 (job : Job) (op : Operation) (pt : ProcTable) (st : SetupTable)
    (prevEnd : Nat) (o' : Operation) (j' : Job)
    (h : assign_job_to_machine job op pt st prevEnd = .ok (some (o', j'))) :
    ∃ k, ∃ hk : k < (get_available_machines_for_job job op).length, ∃ setup t,
      (∀ x ∈ get_available_machines_for_job job op,
        max ((get_available_machines_for_job job op).get ⟨k, hk⟩).2.cumulative_time prevEnd ≤
          max x.2.cumulative_time prevEnd) ∧
      (∀ j, ∀ hj : j < (get_available_machines_for_job job op).length, j < k →
        max ((get_available_machines_for_job job op).get ⟨k, hk⟩).2.cumulative_time prevEnd <
          max ((get_available_machines_for_job job op).get ⟨j, hj⟩).2.cumulative_time prevEnd) ∧
      setupFor st ((get_available_machines_for_job job op).get ⟨k, hk⟩).2 job.type =
        .ok setup ∧
      timingAt j' op.operation_id = some t ∧
      t.start =
        max (((get_available_machines_for_job job op).get ⟨k, hk⟩).2.cumulative_time + setup)
          prevEnd := by
  obtain ⟨idx, selected, b, setup, ts, d, hfind, hsetup, hts, htf, hj, ho⟩ :=
    assign_ok_some_extract job op pt st prevEnd o' j' h
  have hne : get_available_machines_for_job job op ≠ [] := by
    intro hemp
    rw [hemp] at hfind
    exact absurd hfind (by simp [find_machine_with_min_time])
  obtain ⟨k, hk, hfind2, hmin, htie⟩ :=
    find_machine_with_min_time_spec (get_available_machines_for_job job op) prevEnd hne
  rw [hfind] at hfind2
  have hpair := congrArg Prod.fst (Option.some.inj hfind2)
  dsimp only at hpair
  have hsel : selected = ((get_available_machines_for_job job op).get ⟨k, hk⟩).2 :=
    congrArg Prod.snd hpair
  refine ⟨k, hk, setup, Timing.mk (max (selected.cumulative_time + setup) prevEnd)
    (max (selected.cumulative_time + setup) prevEnd + d) setup, hmin, htie, ?_, ?_, ?_⟩
  · rw [← hsel]; exact hsetup
  · rw [hj]
    exact lookup_ainsert_self op.operation_id _ job.operation_times
  · rw [← hsel]

def c1Op : Operation :=
  ⟨"OP_1", [⟨"M_1", ["A"], [⟨"B", 1, []⟩], 5⟩, ⟨"M_2", ["A"], [⟨"A", 2, []⟩], 6⟩]⟩

def c1ST : SetupTable := [("A", [("A", 0)]), ("B", [("A", 100)])]

def c1PT : ProcTable := [("OP_1", [("M_1", [2]), ("M_2", [2])])]

/-- Claim C1 is FALSE as stated: with M_1 free at 5 (last job of type B,
setup B→A = 100) and M_2 free at 6 (last job of type A, setup A→A = 0),
the code selects M_1 (smaller setup-exclusive candidate, 5 < 6) and
records start 105, while the claimed minimal *setup-inclusive* candidate
start is 6 (attained by M_2). -/
theorem claim_C1_counterexample :
    (assign_job_to_machine ⟨"A", 3, []⟩ c1Op c1PT c1ST 0).map
      (fun r => r.map fun x => (timingAt x.2 "OP_1").map Timing.start) =
      .ok (some (some 105)) ∧
    claimedMinStart c1ST "A" 0 c1Op.machines = some 6 ∧
    (105 : Nat) ≠ 6 :=
  ⟨by decide, by decide, by decide⟩

/-- Witness for the amended claim C1 at the counterexample
configuration. -/
theorem claim_C1_witness :
    ∃ k, ∃ hk : k < (get_available_machines_for_job ⟨"A", 3, []⟩ c1Op).length, ∃ setup t,
      (∀ x ∈ get_available_machines_for_job ⟨"A", 3, []⟩ c1Op,
        max ((get_available_machines_for_job ⟨"A", 3, []⟩ c1Op).get
          ⟨k, hk⟩).2.cumulative_time 0 ≤ max x.2.cumulative_time 0) ∧
      (∀ j, ∀ hj : j < (get_available_machines_for_job ⟨"A", 3, []⟩ c1Op).length, j < k →
        max ((get_available_machines_for_job ⟨"A", 3, []⟩ c1Op).get
          ⟨k, hk⟩).2.cumulative_time 0 <
          max ((get_available_machines_for_job ⟨"A", 3, []⟩ c1Op).get
            ⟨j, hj⟩).2.cumulative_time 0) ∧
      setupFor c1ST ((get_available_machines_for_job ⟨"A", 3, []⟩ c1Op).get
        ⟨k, hk⟩).2 (Job.mk "A" 3 []).type = .ok setup ∧
      timingAt ⟨"A", 3, [("OP_1", ⟨105, 107, 100⟩)]⟩ "OP_1" = some t ∧
      t.start = max (((get_available_machines_for_job ⟨"A", 3, []⟩ c1Op).get
        ⟨k, hk⟩).2.cumulative_time + setup) 0 :=
  claim_C1 ⟨"A", 3, []⟩ c1Op c1PT c1ST 0
    ⟨"OP_1", [⟨"M_1", ["A"], [⟨"B", 1, []⟩, ⟨"A", 3, [("OP_1", ⟨105, 107, 100⟩)]⟩], 107⟩,
      ⟨"M_2", ["A"], [⟨"A", 2, []⟩], 6⟩]⟩
    ⟨"A", 3, [("OP_1", ⟨105, 107, 100⟩)]⟩ (by decide)

/-! ## Claims C8 and C9: the dispatch-rule orderings -/

/-- A successful `jobTotals` pairs exactly the input jobs, in order,
with their totals. -/
theorem jobTotals_ok (pt : ProcTable) :
    ∀ (jobs : List Job) (pairs : List (Job × ℕ∞)),
      jobTotals pt jobs = .ok pairs →
      pairs.map Prod.fst = jobs ∧
      ∀ p ∈ pairs, calculate_total_processing_time p.1.type pt = .ok p.2 := by
  intro jobs
  induction jobs with
  | nil =>
    intro pairs h
    have : pairs = [] := (Except.ok.inj h).symm
    subst this
    exact ⟨rfl, by simp⟩
  | cons j rest ih =>
    intro pairs h
    unfold jobTotals at h
    rcases hc : calculate_total_processing_time j.type pt with e | t
    · rw [hc] at h; exact absurd h (by simp)
    rw [hc] at h
    rcases hr : jobTotals pt rest with e | tailPairs
    · rw [hr] at h; exact absurd h (by simp)
    rw [hr] at h
    have : (j, t) :: tailPairs = pairs := Except.ok.inj h
    subst this
    obtain ⟨hmap, hcons⟩ := ih tailPairs hr
    refine ⟨by simp [hmap], ?_⟩
    intro p hp
    rcases List.mem_cons.mp hp with hp | hp
    · subst hp; exact hc
    · exact hcons p hp

/-- Filtering through an `orderedInsert`, when the filter predicate can
only hold on one side of a failed comparison: the inserted element lands
in front of every kept element. -/
theorem filter_orderedInsert {α : Type} (r : α → α → Prop) [DecidableRel r] (p : α → Bool)
    (hcomp : ∀ a b, ¬ r a b → p a = true → p b = false) (a : α) :
    ∀ l : List α, (List.orderedInsert r a l).filter p =
      if p a = true then a :: l.filter p else l.filter p := by
  intro l
  induction l with
  | nil => cases hpa : p a <;> simp [List.orderedInsert, hpa]
  | cons b bs ih =>
    by_cases hr : r a b
    · cases hpa : p a <;> cases hpb : p b <;>
        simp [List.orderedInsert, hr, List.filter_cons, hpa, hpb]
    · cases hpa : p a
      · simp only [List.orderedInsert, if_neg hr, List.filter_cons, ih, hpa]
        cases hpb : p b <;> simp [hpb]
      · have hpb : p b = false := hcomp a b hr hpa
        simp only [List.orderedInsert, if_neg hr, List.filter_cons, ih, hpa, hpb]
        simp

/-- A stable sort does not change the filtered subsequence of elements
sharing one key value. -/
theorem filter_insertionSort {α : Type} (r : α → α → Prop) [DecidableRel r] (p : α → Bool)
    (hcomp : ∀ a b, ¬ r a b → p a = true → p b = false) :
    ∀ l : List α, (List.insertionSort r l).filter p = l.filter p := by
  intro l
  induction l with
  | nil => rfl
  | cons a l ih =>
    simp only [List.insertionSort]
    rw [filter_orderedInsert r p hcomp a]
    cases hpa : p a
    · rw [if_neg (by simp [hpa]), ih, List.filter_cons_of_neg (by simp [hpa])]
    · rw [if_pos (by simp [hpa]), ih, List.filter_cons_of_pos (by simp [hpa])]

/-- Claim C8 CONFIRMED: when no two jobs share a total processing time,
the SPT sequence is the exact reverse of the LPT sequence (and when the
totals cannot be computed, both rules fail with the same error, so the
relation holds trivially in the error case as well). -/
theorem claim_C8 (jobs : List Job) (pt : ProcTable)
    (hdist : List.Pairwise (fun j1 j2 =>
      calculate_total_processing_time j1.type pt ≠
        calculate_total_processing_time j2.type pt) jobs) :
    apply_SPT_rule jobs pt = (apply_LPT_rule jobs pt).map List.reverse := by
  unfold apply_SPT_rule apply_LPT_rule
  cases hjt : jobTotals pt jobs with
  | error e => rfl
  | ok pairs =>
    obtain ⟨hmap, hcons⟩ := jobTotals_ok pt jobs pairs hjt
    have hdistp : List.Pairwise (fun a b : Job × ℕ∞ => a.2 ≠ b.2) pairs := by
      have h1 : List.Pairwise (fun a b : Job × ℕ∞ =>
          calculate_total_processing_time a.1.type pt ≠
            calculate_total_processing_time b.1.type pt) pairs := by
        rw [← hmap] at hdist
        exact (@List.pairwise_map (Job × ℕ∞) Job Prod.fst
          (fun j1 j2 => calculate_total_processing_time j1.type pt ≠
            calculate_total_processing_time j2.type pt) pairs).mp hdist
      refine h1.imp_of_mem ?_
      intro a b ha hb hab hEq
      exact hab (by rw [hcons a ha, hcons b hb, hEq])
    haveI : IsTotal (Job × ℕ∞) (fun a b => a.2 ≤ b.2) := ⟨fun a b => le_total a.2 b.2⟩
    haveI : IsTrans (Job × ℕ∞) (fun a b => a.2 ≤ b.2) :=
      ⟨fun a b c h1 h2 => le_trans h1 h2⟩
    haveI : IsTotal (Job × ℕ∞) (fun a b => b.2 ≤ a.2) := ⟨fun a b => le_total b.2 a.2⟩
    haveI : IsTrans (Job × ℕ∞) (fun a b => b.2 ≤ a.2) :=
      ⟨fun a b c h1 h2 => le_trans h2 h1⟩
    have hsortA := List.sorted_insertionSort (fun a b : Job × ℕ∞ => a.2 ≤ b.2) pairs
    have hsortD := List.sorted_insertionSort (fun a b : Job × ℕ∞ => b.2 ≤ a.2) pairs
    have hpermA := List.perm_insertionSort (fun a b : Job × ℕ∞ => a.2 ≤ b.2) pairs
    have hpermD := List.perm_insertionSort (fun a b : Job × ℕ∞ => b.2 ≤ a.2) pairs
    have hsymm : ∀ {x y : Job × ℕ∞}, x.2 ≠ y.2 → y.2 ≠ x.2 := fun h => h.symm
    have hdistA := (hpermA.pairwise_iff hsymm).mpr hdistp
    have hdistD := (hpermD.pairwise_iff hsymm).mpr hdistp
    have hstrictA : List.Pairwise (fun a b : Job × ℕ∞ => a.2 < b.2)
        (List.insertionSort (fun a b : Job × ℕ∞ => a.2 ≤ b.2) pairs) :=
      (hsortA.and hdistA).imp fun h => lt_of_le_of_ne h.1 h.2
    have hstrictDrev : List.Pairwise (fun a b : Job × ℕ∞ => a.2 < b.2)
        (List.insertionSort (fun a b : Job × ℕ∞ => b.2 ≤ a.2) pairs).reverse := by
      rw [List.pairwise_reverse]
      exact (hsortD.and hdistD).imp fun h => lt_of_le_of_ne h.1 h.2.symm
    have hperm2 : (List.insertionSort (fun a b : Job × ℕ∞ => a.2 ≤ b.2) pairs).Perm
        (List.insertionSort (fun a b : Job × ℕ∞ => b.2 ≤ a.2) pairs).reverse :=
      hpermA.trans (hpermD.symm.trans (List.reverse_perm _).symm)
    haveI : IsAntisymm (Job × ℕ∞) (fun a b : Job × ℕ∞ => a.2 < b.2) :=
      ⟨fun a b h1 h2 => absurd h1 (lt_asymm h2)⟩
    have hs := List.eq_of_perm_of_sorted hperm2 hstrictA hstrictDrev
    dsimp only [Except.map]
    rw [hs, List.map_reverse]

/-- Concrete two-job catalogue with distinct totals (1 for A, 5 for B
under `c7PT`). -/
def c8Jobs : List Job := [⟨"A", 1, []⟩, ⟨"B", 2, []⟩]

/-- Witness for claim C8 on a concrete two-job catalogue. -/
theorem claim_C8_witness :
    apply_SPT_rule c8Jobs c7PT = (apply_LPT_rule c8Jobs c7PT).map List.reverse :=
  claim_C8 c8Jobs c7PT (by decide)

/-- Does this job's total processing time equal `v`? -/
def totalEq (pt : ProcTable) (v : ℕ∞) (j : Job) : Bool :=
  match calculate_total_processing_time j.type pt with
  | .ok t => decide (t = v)
  | .error _ => false

/-- Claim C9 CONFIRMED: a successful LPT ordering is a permutation of
the catalogue, is sorted descending by total processing time, and for
every total value the subsequence of jobs with that total is exactly the
catalogue subsequence (stability: ties keep catalogue order). -/
theorem claim_C9 (jobs : List Job) (pt : ProcTable) (out : List Job)
    (h : apply_LPT_rule jobs pt = .ok out) :
    out.Perm jobs ∧
    List.Pairwise (fun j1 j2 => ∀ t1 t2,
      calculate_total_processing_time j1.type pt = .ok t1 →
      calculate_total_processing_time j2.type pt = .ok t2 → t2 ≤ t1) out ∧
    ∀ v : ℕ∞, out.filter (totalEq pt v) = jobs.filter (totalEq pt v) := by
  unfold apply_LPT_rule at h
  rcases hjt : jobTotals pt jobs with e | pairs
  · rw [hjt] at h; exact absurd h (by simp)
  rw [hjt] at h
  have hout : out =
      (List.insertionSort (fun a b : Job × ℕ∞ => b.2 ≤ a.2) pairs).map Prod.fst :=
    (Except.ok.inj h).symm
  obtain ⟨hmap, hcons⟩ := jobTotals_ok pt jobs pairs hjt
  haveI : IsTotal (Job × ℕ∞) (fun a b => b.2 ≤ a.2) := ⟨fun a b => le_total b.2 a.2⟩
  haveI : IsTrans (Job × ℕ∞) (fun a b => b.2 ≤ a.2) :=
    ⟨fun a b c h1 h2 => le_trans h2 h1⟩
  have hperm := List.perm_insertionSort (fun a b : Job × ℕ∞ => b.2 ≤ a.2) pairs
  refine ⟨?_, ?_, ?_⟩
  · rw [hout, ← hmap]
    exact hperm.map Prod.fst
  · rw [hout, List.pairwise_map]
    have hsorted := List.sorted_insertionSort (fun a b : Job × ℕ∞ => b.2 ≤ a.2) pairs
    refine hsorted.imp_of_mem ?_
    intro a b ha hb hle t1 t2 h1 h2
    have ha' := hcons a ((List.mem_insertionSort _).mp ha)
    have hb' := hcons b ((List.mem_insertionSort _).mp hb)
    rw [ha'] at h1
    rw [hb'] at h2
    rw [← Except.ok.inj h1, ← Except.ok.inj h2]
    exact hle
  · intro v
    rw [hout, ← hmap, List.filter_map, List.filter_map]
    have hc1 : (List.insertionSort (fun a b : Job × ℕ∞ => b.2 ≤ a.2) pairs).filter
        (totalEq pt v ∘ Prod.fst) =
        (List.insertionSort (fun a b : Job × ℕ∞ => b.2 ≤ a.2) pairs).filter
        (fun x => decide (x.2 = v)) := by
      refine List.filter_congr ?_
      intro x hx
      have hx' := hcons x ((List.mem_insertionSort _).mp hx)
      simp [Function.comp, totalEq, hx']
    have hc2 : pairs.filter (totalEq pt v ∘ Prod.fst) =
        pairs.filter (fun x => decide (x.2 = v)) := by
      refine List.filter_congr ?_
      intro x hx
      have hx' := hcons x hx
      simp [Function.comp, totalEq, hx']
    rw [hc1, hc2]
    rw [filter_insertionSort (fun a b : Job × ℕ∞ => b.2 ≤ a.2) (fun x => decide (x.2 = v))]
    intro a b hr hpa
    have hlt : a.2 < b.2 := lt_of_not_le hr
    have hav : a.2 = v := of_decide_eq_true hpa
    refine decide_eq_false ?_
    intro hbv
    rw [hav] at hlt
    rw [hbv] at hlt
    exact lt_irrefl v hlt

/-- Witness for claim C9 on the concrete two-job catalogue: LPT orders
B (total 5) before A (total 1). -/
theorem claim_C9_witness :
    (List.Perm [⟨"B", 2, []⟩, ⟨"A", 1, []⟩] c8Jobs) ∧
    List.Pairwise (fun j1 j2 => ∀ t1 t2,
      calculate_total_processing_time j1.type c7PT = .ok t1 →
      calculate_total_processing_time j2.type c7PT = .ok t2 → t2 ≤ t1)
      ([⟨"B", 2, []⟩, ⟨"A", 1, []⟩] : List Job) ∧
    ∀ v : ℕ∞, ([⟨"B", 2, []⟩, ⟨"A", 1, []⟩] : List Job).filter (totalEq c7PT v) =
      c8Jobs.filter (totalEq c7PT v) :=
  claim_C9 c8Jobs c7PT [⟨"B", 2, []⟩, ⟨"A", 1, []⟩] (by decide)

/-! ## Claim C3 amended: the invalid-rule error characterisation -/

theorem stageMin_no_invalid (t : String) :
    ∀ (ms : List (String × List Nat)) (mn : ℕ∞), stageMin t ms mn ≠ .error .invalidRule := by
  intro ms
  induction ms with
  | nil => intro mn h; simp [stageMin] at h
  | cons m rest ih =>
    intro mn h
    obtain ⟨mid, mts⟩ := m
    unfold stageMin at h
    rcases htf : timeFor t mts with _ | tv
    · rw [htf] at h
      dsimp only at h
      simp at h
    · rw [htf] at h
      dsimp only at h
      exact ih _ h

theorem calcTotalGo_no_invalid (t : String) :
    ∀ (p : ProcTable) (acc : ℕ∞), calcTotalGo t p acc ≠ .error .invalidRule := by
  intro p
  induction p with
  | nil => intro acc h; simp [calcTotalGo] at h
  | cons stage rest ih =>
    intro acc h
    obtain ⟨sid, machines⟩ := stage
    unfold calcTotalGo at h
    rcases hsm : stageMin t machines ⊤ with e | mn
    · rw [hsm] at h
      dsimp only at h
      have he : e = SchedError.invalidRule := by simpa using h
      rw [he] at hsm
      exact stageMin_no_invalid t machines ⊤ hsm
    · rw [hsm] at h
      dsimp only at h
      exact ih _ h

theorem jobTotals_no_invalid (pt : ProcTable) :
    ∀ jobs : List Job, jobTotals pt jobs ≠ .error .invalidRule := by
  intro jobs
  induction jobs with
  | nil => intro h; simp [jobTotals] at h
  | cons j rest ih =>
    intro h
    unfold jobTotals at h
    rcases hc : calculate_total_processing_time j.type pt with e | t
    · rw [hc] at h
      dsimp only at h
      have he : e = SchedError.invalidRule := by simpa using h
      rw [he] at hc
      exact calcTotalGo_no_invalid j.type pt 0 hc
    · rw [hc] at h
      dsimp only at h
      rcases hr : jobTotals pt rest with e | tailPairs
      · rw [hr] at h
        dsimp only at h
        have he : e = SchedError.invalidRule := by simpa using h
        rw [he] at hr
        exact ih hr
      · rw [hr] at h
        dsimp only at h
        simp at h

theorem apply_SPT_no_invalid (jobs : List Job) (pt : ProcTable) :
    apply_SPT_rule jobs pt ≠ .error .invalidRule := by
  intro h
  unfold apply_SPT_rule at h
  rcases hjt : jobTotals pt jobs with e | pairs
  · rw [hjt] at h
    dsimp only at h
    have he : e = SchedError.invalidRule := by simpa using h
    rw [he] at hjt
    exact jobTotals_no_invalid pt jobs hjt
  · rw [hjt] at h
    dsimp only at h
    simp at h

theorem apply_LPT_no_invalid (jobs : List Job) (pt : ProcTable) :
    apply_LPT_rule jobs pt ≠ .error .invalidRule := by
  intro h
  unfold apply_LPT_rule at h
  rcases hjt : jobTotals pt jobs with e | pairs
  · rw [hjt] at h
    dsimp only at h
    have he : e = SchedError.invalidRule := by simpa using h
    rw [he] at hjt
    exact jobTotals_no_invalid pt jobs hjt
  · rw [hjt] at h
    dsimp only at h
    simp at h

theorem setupFor_no_invalid (st : SetupTable) (m : Machine) (t : String) :
    setupFor st m t ≠ .error .invalidRule := by
  intro h
  unfold setupFor at h
  rcases hlast : m.jobs.getLast? with _ | prevJob
  · rw [hlast] at h
    dsimp only at h
    simp at h
  · rw [hlast] at h
    dsimp only at h
    rcases hl : lookup2 st prevJob.type t with _ | s
    · rw [hl] at h
      dsimp only at h
      simp at h
    · rw [hl] at h
      dsimp only at h
      simp at h

theorem lookupTimes_no_invalid (pt : ProcTable) (opId mId : String) :
    lookupTimes pt opId mId ≠ .error .invalidRule := by
  intro h
  unfold lookupTimes at h
  rcases hl : (List.lookup opId pt).bind (List.lookup mId) with _ | ts
  · rw [hl] at h
    dsimp only at h
    simp at h
  · rw [hl] at h
    dsimp only at h
    simp at h

theorem assign_no_invalid (job : Job) (op : Operation) (pt : ProcTable) (st : SetupTable)
    (p : Nat) : assign_job_to_machine job op pt st p ≠ .error .invalidRule := by
  intro h
  unfold assign_job_to_machine at h
  rcases hfind : find_machine_with_min_time (get_available_machines_for_job job op) p with
    _ | ⟨⟨idx, selected⟩, b⟩
  · rw [hfind] at h
    dsimp only at h
    simp at h
  rw [hfind] at h
  dsimp only at h
  rcases hsetup : setupFor st selected job.type with e | setup
  · rw [hsetup] at h
    dsimp only at h
    have he : e = SchedError.invalidRule := by simpa using h
    rw [he] at hsetup
    exact setupFor_no_invalid st selected job.type hsetup
  rw [hsetup] at h
  dsimp only at h
  rcases hts : lookupTimes pt op.operation_id selected.machine_id with e | ts
  · rw [hts] at h
    dsimp only at h
    have he : e = SchedError.invalidRule := by simpa using h
    rw [he] at hts
    exact lookupTimes_no_invalid pt op.operation_id selected.machine_id hts
  rw [hts] at h
  dsimp only at h
  rcases htf : timeFor job.type ts with _ | d
  · rw [htf] at h
    dsimp only at h
    simp at h
  · rw [htf] at h
    dsimp only at h
    simp at h

theorem scheduleJobOps_no_invalid (pt : ProcTable) (st : SetupTable) :
    ∀ (ops : List Operation) (job : Job) (prevEnd : Nat),
      scheduleJobOps pt st job prevEnd ops ≠ .error .invalidRule := by
  intro ops
  induction ops with
  | nil => intro job prevEnd h; simp [scheduleJobOps] at h
  | cons op rest ih =>
    intro job prevEnd h
    unfold scheduleJobOps at h
    rcases hassign : assign_job_to_machine job op pt st prevEnd with e | r
    · rw [hassign] at h
      dsimp only at h
      have he : e = SchedError.invalidRule := by simpa using h
      rw [he] at hassign
      exact assign_no_invalid job op pt st prevEnd hassign
    rw [hassign] at h
    rcases r with _ | ⟨op', job'⟩
    · dsimp only at h
      rcases hrec : scheduleJobOps pt st job prevEnd rest with e | pr
      · rw [hrec] at h
        dsimp only at h
        have he : e = SchedError.invalidRule := by simpa using h
        rw [he] at hrec
        exact ih job prevEnd hrec
      · rw [hrec] at h
        dsimp only at h
        simp at h
    · dsimp only at h
      rcases htim : timingAt job' op.operation_id with _ | tt
      · rw [htim] at h
        dsimp only at h
        simp at h
      rw [htim] at h
      dsimp only at h
      rcases hrec : scheduleJobOps pt st job' tt.endTime rest with e | pr
      · rw [hrec] at h
        dsimp only at h
        have he : e = SchedError.invalidRule := by simpa using h
        rw [he] at hrec
        exact ih job' tt.endTime hrec
      · rw [hrec] at h
        dsimp only at h
        simp at h

theorem scheduleJobsLoop_no_invalid (pt : ProcTable) (st : SetupTable) :
    ∀ (jobs : List Job) (ops : List Operation),
      scheduleJobsLoop pt st ops jobs ≠ .error .invalidRule := by
  intro jobs
  induction jobs with
  | nil => intro ops h; simp [scheduleJobsLoop] at h
  | cons j js ih =>
    intro ops h
    unfold scheduleJobsLoop at h
    rcases hops : scheduleJobOps pt st j 0 ops with e | ⟨ops', j'⟩
    · rw [hops] at h
      dsimp only at h
      have he : e = SchedError.invalidRule := by simpa using h
      rw [he] at hops
      exact scheduleJobOps_no_invalid pt st ops j 0 hops
    rw [hops] at h
    dsimp only at h
    rcases hloop : scheduleJobsLoop pt st ops' js with e | pr2
    · rw [hloop] at h
      dsimp only at h
      have he : e = SchedError.invalidRule := by simpa using h
      rw [he] at hloop
      exact ih ops' hloop
    · rw [hloop] at h
      dsimp only at h
      simp at h

/-- Claim C3 amended: `schedule_all_jobs` aborts before any scheduling
with the invalid-configuration (`ValueError`) error *exactly* when the
dispatch rule is outside {SPT, LPT}.  Structurally missing table entries
never trigger this pre-scheduling abort: a missing eligibility entry
merely leaves jobs unscheduled (see the counterexample), and missing
duration/setup entries surface as `KeyError`/`IndexError` during
scheduling. -/
theorem claim_C3 (jobs : List Job) (operations : List Operation) (pt : ProcTable)
    (st : SetupTable) (rule : String) :
    schedule_all_jobs jobs operations pt st rule = .error .invalidRule ↔
      rule ≠ "SPT" ∧ rule ≠ "LPT" := by
  unfold schedule_all_jobs
  by_cases hspt : rule = "SPT"
  · subst hspt
    have hb : ("SPT" == "SPT") = true := rfl
    rw [hb]
    constructor
    · intro h
      rw [if_pos rfl] at h
      rcases happ : apply_SPT_rule jobs pt with e | sorted_jobs
      · rw [happ] at h
        dsimp only at h
        have he : e = SchedError.invalidRule := by simpa using h
        rw [he] at happ
        exact absurd happ (apply_SPT_no_invalid jobs pt)
      · rw [happ] at h
        dsimp only at h
        exact absurd h (scheduleJobsLoop_no_invalid pt st sorted_jobs _)
    · intro h
      exact absurd rfl h.1
  · by_cases hlpt : rule = "LPT"
    · subst hlpt
      have hb : ("LPT" == "SPT") = false := rfl
      have hb2 : ("LPT" == "LPT") = true := rfl
      rw [hb, hb2]
      constructor
      · intro h
        rw [if_neg (by simp), if_pos rfl] at h
        rcases happ : apply_LPT_rule jobs pt with e | sorted_jobs
        · rw [happ] at h
          dsimp only at h
          have he : e = SchedError.invalidRule := by simpa using h
          rw [he] at happ
          exact absurd happ (apply_LPT_no_invalid jobs pt)
        · rw [happ] at h
          dsimp only at h
          exact absurd h (scheduleJobsLoop_no_invalid pt st sorted_jobs _)
      · intro h
        exact absurd rfl h.2
    · have hb1 : (rule == "SPT") = false := beq_eq_false_iff_ne.mpr hspt
      have hb2 : (rule == "LPT") = false := beq_eq_false_iff_ne.mpr hlpt
      rw [hb1, hb2]
      simp [hspt, hlpt]

/-- Witness for claim C3's amended characterisation: an unknown rule
name produces exactly the invalid-rule error. -/
theorem claim_C3_witness :
    schedule_all_jobs [] [] [] [] "FIFO" = .error .invalidRule :=
  (claim_C3 [] [] [] [] "FIFO").mpr ⟨by decide, by decide⟩

/-! ## Claim C5: the per-machine timeline invariant -/

/-- End time, at stage `opId`, of the last job in a machine's job list. -/
def lastEnd (opId : String) (l : List Job) : Option Nat :=
  match l.getLast? with
  | none => none
  | some j => (timingAt j opId).map Timing.endTime

/-- The setup-separation condition between two consecutive jobs on one
machine: both have timing records at the stage, the setup table has the
type transition, and `end(j1) + setup(type j1 → type j2) ≤ start(j2)`. -/
def linkOK (st : SetupTable) (opId : String) (j1 j2 : Job) : Bool :=
  match timingAt j1 opId, timingAt j2 opId, lookup2 st j1.type j2.type with
  | some tp, some tj, some s => decide (tp.endTime + s ≤ tj.start)
  | _, _, _ => false

/-- The chain of `linkOK` conditions along a machine's job list. -/
def chainAux (st : SetupTable) (opId : String) : Job → List Job → Bool
  | _, [] => true
  | prev, j :: rest => linkOK st opId prev j && chainAux st opId j rest

/-- Claim C5's machine invariant at a stage: the first job carries a
zero recorded setup, consecutive jobs respect
`end(j1) + setup(type j1 → type j2) ≤ start(j2)`, and
`cumulative_time` equals the end time of the last job appended (0 when
the machine is empty). -/
def machineInv (st : SetupTable) (opId : String) (m : Machine) : Bool :=
  match m.jobs with
  | [] => decide (m.cumulative_time = 0)
  | j :: rest =>
    (match timingAt j opId with
     | some t => decide (t.setup_time = 0)
     | none => false)
    && chainAux st opId j rest
    && decide (lastEnd opId m.jobs = some m.cumulative_time)

theorem getLast?_cons_eq_getLastD (j : Job) (rest : List Job) :
    (j :: rest).getLast? = some (rest.getLastD j) := by
  rw [List.getLast?_cons, List.getLastD_eq_getLast?]

theorem chainAux_append (st : SetupTable) (opId : String) :
    ∀ (l : List Job) (prev x : Job),
      chainAux st opId prev (l ++ [x]) =
        (chainAux st opId prev l && linkOK st opId (l.getLastD prev) x) := by
  intro l
  induction l with
  | nil => intro prev x; simp [chainAux]
  | cons j rest ih =>
    intro prev x
    rw [List.cons_append]
    simp only [chainAux]
    rw [ih j x, List.getLastD_cons, Bool.and_assoc]

/-- Appending the freshly assigned job (with its new record) to the
selected machine preserves the invariant. -/
theorem machineInv_append (st : SetupTable) (opId : String) (m : Machine) (jobType : String)
    (setup d p : Nat) (jrec : Job)
    (hinv : machineInv st opId m = true)
    (hsetup : setupFor st m jobType = .ok setup)
    (hjtype : jrec.type = jobType)
    (hjt : timingAt jrec opId = some
      (Timing.mk (max (m.cumulative_time + setup) p)
        (max (m.cumulative_time + setup) p + d) setup)) :
    machineInv st opId (Machine.mk m.machine_id m.allowed_jobs (m.jobs ++ [jrec])
      (max (m.cumulative_time + setup) p + d)) = true := by
  rcases hjobs : m.jobs with _ | ⟨j, rest⟩
  · have hs0 : setup = 0 := by
      unfold setupFor at hsetup
      rw [hjobs] at hsetup
      dsimp only [List.getLast?] at hsetup
      exact (Except.ok.inj hsetup).symm
    subst hs0
    simp only [machineInv, hjobs, List.nil_append]
    simp [chainAux, lastEnd, hjt]
  · -- decompose the old invariant
    unfold machineInv at hinv
    rw [hjobs] at hinv
    dsimp only at hinv
    rw [Bool.and_assoc, Bool.and_eq_true, Bool.and_eq_true] at hinv
    obtain ⟨hhead, hchain, hlastb⟩ := hinv
    have hlast : lastEnd opId (j :: rest) = some m.cumulative_time :=
      of_decide_eq_true hlastb
    -- the last job of the old list and its record
    obtain ⟨tl, htl, htlend⟩ : ∃ tl, timingAt (rest.getLastD j) opId = some tl ∧
        tl.endTime = m.cumulative_time := by
      unfold lastEnd at hlast
      rw [getLast?_cons_eq_getLastD] at hlast
      dsimp only at hlast
      exact Option.map_eq_some'.mp hlast
    -- the setup drawn from the table for the last job's type
    have hlookup : lookup2 st (rest.getLastD j).type jobType = some setup := by
      unfold setupFor at hsetup
      rw [hjobs, getLast?_cons_eq_getLastD] at hsetup
      dsimp only at hsetup
      rcases hl : lookup2 st (rest.getLastD j).type jobType with _ | s
      · rw [hl] at hsetup
        exact absurd hsetup (by simp)
      · rw [hl] at hsetup
        dsimp only at hsetup
        rw [Except.ok.inj hsetup]
    -- assemble the invariant of the extended machine
    unfold machineInv
    simp only [List.cons_append]
    dsimp only
    rw [Bool.and_assoc, Bool.and_eq_true, Bool.and_eq_true]
    refine ⟨hhead, ?_, ?_⟩
    · rw [chainAux_append st opId rest j jrec, Bool.and_eq_true]
      refine ⟨hchain, ?_⟩
      unfold linkOK
      rw [htl, hjt, hjtype, hlookup]
      exact decide_eq_true (by rw [htlend]; exact le_max_left _ _)
    · refine decide_eq_true ?_
      unfold lastEnd
      rw [show (j :: (rest ++ [jrec])) = ((j :: rest) ++ [jrec]) from rfl,
        List.getLast?_concat]
      dsimp only
      rw [hjt]
      rfl

/-- A successful `find_machine_with_min_time` returns a member of its
input list. -/
theorem find_mem (l : List (Nat × Machine)) (p : Nat) (im : Nat × Machine) (b : Nat)
    (h : find_machine_with_min_time l p = some (im, b)) : im ∈ l := by
  have hne : l ≠ [] := by
    intro hemp
    subst hemp
    exact absurd h (by simp [find_machine_with_min_time])
  obtain ⟨k, hk, hfind2, hmin, htie⟩ := find_machine_with_min_time_spec l p hne
  rw [h] at hfind2
  have h1 := congrArg Prod.fst (Option.some.inj hfind2)
  dsimp only at h1
  rw [h1]
  exact List.get_mem l k hk

/-- One successful assignment preserves the machine invariant on every
machine of the stage. -/
theorem assign_preserves_machineInv (job : Job) (op : Operation) (pt : ProcTable)
    (st : SetupTable) (p : Nat) (o' : Operation) (j' : Job)
    (h : assign_job_to_machine job op pt st p = .ok (some (o', j')))
    (hinv : ∀ m ∈ op.machines, machineInv st op.operation_id m = true) :
    (∀ m ∈ o'.machines, machineInv st op.operation_id m = true) ∧
      o'.operation_id = op.operation_id := by
  obtain ⟨idx, selected, b, setup, ts, d, hfind, hsetup, hts, htf, hj, ho⟩ :=
    assign_ok_some_extract job op pt st p o' j' h
  have hselmem : selected ∈ op.machines := by
    have himem := find_mem _ p (idx, selected) b hfind
    have h2 : (idx, selected) ∈ op.machines.enum := List.mem_of_mem_filter himem
    rw [List.enum_eq_zip_range] at h2
    exact (List.of_mem_zip h2).2
  subst ho
  refine ⟨?_, rfl⟩
  intro m hm
  rcases List.mem_or_eq_of_mem_set hm with hm | hm
  · exact hinv m hm
  · subst hm
    exact machineInv_append st op.operation_id selected job.type setup d p j'
      (hinv selected hselmem) hsetup (by rw [hj])
      (by rw [hj]; exact lookup_ainsert_self op.operation_id _ job.operation_times)

/-- The inner stage loop preserves the machine invariant on every stage. -/
theorem scheduleJobOps_preserves_machineInv (pt : ProcTable) (st : SetupTable) :
    ∀ (ops : List Operation) (job : Job) (prevEnd : Nat) (ops' : List Operation) (job' : Job),
      scheduleJobOps pt st job prevEnd ops = .ok (ops', job') →
      (∀ op ∈ ops, ∀ m ∈ op.machines, machineInv st op.operation_id m = true) →
      ∀ op ∈ ops', ∀ m ∈ op.machines, machineInv st op.operation_id m = true := by
  intro ops
  induction ops with
  | nil =>
    intro job prevEnd ops' job' h hinv
    unfold scheduleJobOps at h
    have h1 : ([] : List Operation) = ops' := congrArg Prod.fst (Except.ok.inj h)
    intro op hop
    rw [← h1] at hop
    exact absurd hop (List.not_mem_nil op)
  | cons op rest ih =>
    intro job prevEnd ops' job' h hinv
    unfold scheduleJobOps at h
    rcases hassign : assign_job_to_machine job op pt st prevEnd with e | r
    · rw [hassign] at h
      dsimp only at h
      exact absurd h (by simp)
    rw [hassign] at h
    rcases r with _ | ⟨op1, job1⟩
    · dsimp only at h
      rcases hrec : scheduleJobOps pt st job prevEnd rest with e | pr
      · rw [hrec] at h
        dsimp only at h
        exact absurd h (by simp)
      obtain ⟨rest', jj⟩ := pr
      rw [hrec] at h
      dsimp only at h
      have h1 : op :: rest' = ops' := congrArg Prod.fst (Except.ok.inj h)
      subst h1
      intro o ho
      rcases List.mem_cons.mp ho with ho | ho
      · subst ho
        exact hinv o (List.mem_cons_self o rest)
      · exact ih job prevEnd rest' jj hrec
          (fun o2 ho2 => hinv o2 (List.mem_cons_of_mem op ho2)) o ho
    · dsimp only at h
      rcases htim : timingAt job1 op.operation_id with _ | tt
      · rw [htim] at h
        dsimp only at h
        exact absurd h (by simp)
      rw [htim] at h
      dsimp only at h
      rcases hrec : scheduleJobOps pt st job1 tt.endTime rest with e | pr
      · rw [hrec] at h
        dsimp only at h
        exact absurd h (by simp)
      obtain ⟨rest', jj⟩ := pr
      rw [hrec] at h
      dsimp only at h
      have h1 : op1 :: rest' = ops' := congrArg Prod.fst (Except.ok.inj h)
      subst h1
      obtain ⟨hop1inv, hop1id⟩ := assign_preserves_machineInv job op pt st prevEnd op1 job1
        hassign (hinv op (List.mem_cons_self op rest))
      intro o ho
      rcases List.mem_cons.mp ho with ho | ho
      · subst ho
        intro m hm
        rw [hop1id]
        exact hop1inv m hm
      · exact ih job1 tt.endTime rest' jj hrec
          (fun o2 ho2 => hinv o2 (List.mem_cons_of_mem op ho2)) o ho

/-- The outer job loop preserves the machine invariant. -/
theorem scheduleJobsLoop_preserves_machineInv (pt : ProcTable) (st : SetupTable) :
    ∀ (jobs : List Job) (ops ops' : List Operation) (jobs' : List Job),
      scheduleJobsLoop pt st ops jobs = .ok (ops', jobs') →
      (∀ op ∈ ops, ∀ m ∈ op.machines, machineInv st op.operation_id m = true) →
      ∀ op ∈ ops', ∀ m ∈ op.machines, machineInv st op.operation_id m = true := by
  intro jobs
  induction jobs with
  | nil =>
    intro ops ops' jobs' h hinv
    unfold scheduleJobsLoop at h
    have h1 : ops = ops' := congrArg Prod.fst (Except.ok.inj h)
    subst h1
    exact hinv
  | cons j js ih =>
    intro ops ops' jobs' h hinv
    unfold scheduleJobsLoop at h
    rcases hops : scheduleJobOps pt st j 0 ops with e | pr
    · rw [hops] at h
      dsimp only at h
      exact absurd h (by simp)
    obtain ⟨ops1, j1⟩ := pr
    rw [hops] at h
    dsimp only at h
    rcases hloop : scheduleJobsLoop pt st ops1 js with e | pr2
    · rw [hloop] at h
      dsimp only at h
      exact absurd h (by simp)
    obtain ⟨ops2, js2⟩ := pr2
    rw [hloop] at h
    dsimp only at h
    have h1 : ops2 = ops' := congrArg Prod.fst (Except.ok.inj h)
    subst h1
    exact ih ops1 ops2 js2 hloop
      (scheduleJobOps_preserves_machineInv pt st ops j 0 ops1 j1 hops hinv)

/-- Claim C5 CONFIRMED: after a completed scheduling run, every machine
of every stage satisfies the timeline invariant: the first job on a
machine carries zero recorded setup, each pair of consecutive jobs in
append order respects `start(j2) ≥ end(j1) + setup(type j1 → type j2)`
at that machine's stage, and the machine's cumulative-available-time
equals the end time of the last job appended. -/
theorem claim_C5 (jobs : List Job) (operations : List Operation) (pt : ProcTable)
    (st : SetupTable) (rule : String) (ops' : List Operation) (jobs' : List Job)
    (hinit : ∀ op ∈ operations, ∀ m ∈ op.machines, machineInv st op.operation_id m = true)
    (hrun : schedule_all_jobs jobs operations pt st rule = .ok (ops', jobs')) :
    ∀ op ∈ ops', ∀ m ∈ op.machines, machineInv st op.operation_id m = true := by
  unfold schedule_all_jobs at hrun
  rcases hsel : (if rule == "SPT" then apply_SPT_rule jobs pt
      else if rule == "LPT" then apply_LPT_rule jobs pt
      else Except.error SchedError.invalidRule) with e | sorted_jobs
  · rw [hsel] at hrun
    dsimp only at hrun
    exact absurd hrun (by simp)
  · rw [hsel] at hrun
    dsimp only at hrun
    refine scheduleJobsLoop_preserves_machineInv pt st sorted_jobs _ ops' jobs' hrun ?_
    intro op hop
    exact hinit op ((List.mem_insertionSort _).mp hop)

/-- Witness for claim C5 on a concrete completed run: two type-A jobs
back-to-back on one machine with setup(A→A) = 1, giving records
[0,3] and [4,7] and cumulative time 7. -/
theorem claim_C5_witness :
    machineInv [("A", [("A", 1)])] "OP_1"
      ⟨"M_1", ["A"],
        [⟨"A", 1, [("OP_1", ⟨0, 3, 0⟩)]⟩, ⟨"A", 2, [("OP_1", ⟨4, 7, 1⟩)]⟩], 7⟩ = true :=
  claim_C5 (create_job_list [("A", 2)]) (create_operations [("OP_1", [("M_1", ["A"])])])
    [("OP_1", [("M_1", [3])])] [("A", [("A", 1)])] "SPT"
    [⟨"OP_1", [⟨"M_1", ["A"],
      [⟨"A", 1, [("OP_1", ⟨0, 3, 0⟩)]⟩, ⟨"A", 2, [("OP_1", ⟨4, 7, 1⟩)]⟩], 7⟩]⟩]
    [⟨"A", 1, [("OP_1", ⟨0, 3, 0⟩)]⟩, ⟨"A", 2, [("OP_1", ⟨4, 7, 1⟩)]⟩]
    (by decide) (by decide)
    ⟨"OP_1", [⟨"M_1", ["A"],
      [⟨"A", 1, [("OP_1", ⟨0, 3, 0⟩)]⟩, ⟨"A", 2, [("OP_1", ⟨4, 7, 1⟩)]⟩], 7⟩]⟩
    (by decide)
    ⟨"M_1", ["A"],
      [⟨"A", 1, [("OP_1", ⟨0, 3, 0⟩)]⟩, ⟨"A", 2, [("OP_1", ⟨4, 7, 1⟩)]⟩], 7⟩
    (by decide)

/-! ## Claim C6: cross-stage precedence for each job -/

/-- The precedence condition of claim C6 between two stages for one job:
when the job has timing records at both stages, the first record's end
is at most the second record's start. -/
def pairOK (j : Job) (o1 o2 : Operation) : Bool :=
  match timingAt j o1.operation_id, timingAt j o2.operation_id with
  | some a, some b => decide (a.endTime ≤ b.start)
  | _, _ => true

theorem pairOK_congr (j : Job) (o1 o2 o1' o2' : Operation)
    (h1 : o1.operation_id = o1'.operation_id) (h2 : o2.operation_id = o2'.operation_id) :
    pairOK j o1 o2 = pairOK j o1' o2' := by
  unfold pairOK
  rw [h1, h2]

/-- `pairOK` chains transfer between stage lists with identical stage
ids (the scheduler rewrites machine states but never stage ids). -/
theorem chain_pairOK_of_ids (j : Job) :
    ∀ (l1 l2 : List Operation),
      l1.map Operation.operation_id = l2.map Operation.operation_id →
      List.Chain' (fun o1 o2 => pairOK j o1 o2 = true) l1 →
      List.Chain' (fun o1 o2 => pairOK j o1 o2 = true) l2 := by
  intro l1
  induction l1 with
  | nil =>
    intro l2 hids hch
    cases l2 with
    | nil => exact List.chain'_nil
    | cons b bs => simp at hids
  | cons a l1 ih =>
    intro l2 hids hch
    cases l2 with
    | nil => simp at hids
    | cons b bs =>
      simp only [List.map_cons, List.cons.injEq] at hids
      obtain ⟨hab, hrest⟩ := hids
      cases l1 with
      | nil =>
        cases bs with
        | nil => exact List.chain'_singleton b
        | cons c cs => simp at hrest
      | cons a2 l1' =>
        cases bs with
        | nil => simp at hrest
        | cons b2 bs' =>
          have ha2b2 : a2.operation_id = b2.operation_id := by
            simp only [List.map_cons, List.cons.injEq] at hrest
            exact hrest.1
          obtain ⟨hR, hch'⟩ := List.chain'_cons.mp hch
          refine List.chain'_cons.mpr ⟨?_, ih (b2 :: bs') hrest hch'⟩
          rw [← pairOK_congr j a a2 b b2 hab ha2b2]
          exact hR

theorem apply_SPT_perm (jobs : List Job) (pt : ProcTable) (out : List Job)
    (h : apply_SPT_rule jobs pt = .ok out) : out.Perm jobs := by
  unfold apply_SPT_rule at h
  rcases hjt : jobTotals pt jobs with e | pairs
  · rw [hjt] at h; exact absurd h (by simp)
  rw [hjt] at h
  dsimp only at h
  have hout := (Except.ok.inj h).symm
  obtain ⟨hmap, _⟩ := jobTotals_ok pt jobs pairs hjt
  rw [hout, ← hmap]
  exact (List.perm_insertionSort _ pairs).map Prod.fst

theorem apply_LPT_perm (jobs : List Job) (pt : ProcTable) (out : List Job)
    (h : apply_LPT_rule jobs pt = .ok out) : out.Perm jobs := by
  unfold apply_LPT_rule at h
  rcases hjt : jobTotals pt jobs with e | pairs
  · rw [hjt] at h; exact absurd h (by simp)
  rw [hjt] at h
  dsimp only at h
  have hout := (Except.ok.inj h).symm
  obtain ⟨hmap, _⟩ := jobTotals_ok pt jobs pairs hjt
  rw [hout, ← hmap]
  exact (List.perm_insertionSort _ pairs).map Prod.fst

theorem ruleSort_perm (jobs : List Job) (pt : ProcTable) (rule : String) (out : List Job)
    (h : (if rule == "SPT" then apply_SPT_rule jobs pt
          else if rule == "LPT" then apply_LPT_rule jobs pt
          else Except.error SchedError.invalidRule) = .ok out) : out.Perm jobs := by
  by_cases h1 : (rule == "SPT") = true
  · rw [if_pos h1] at h
    exact apply_SPT_perm jobs pt out h
  · rw [if_neg h1] at h
    by_cases h2 : (rule == "LPT") = true
    · rw [if_pos h2] at h
      exact apply_LPT_perm jobs pt out h
    · rw [if_neg h2] at h
      exact absurd h (by simp)

/-- One job's pass through the stage list: stage ids are preserved,
records at stages outside the list are untouched, the first stage's
record (if any) starts no earlier than the incoming
`earliest_permitted_start`, and the resulting record sequence satisfies
the adjacent-stage precedence chain. -/
theorem scheduleJobOps_chain (pt : ProcTable) (st : SetupTable) :
    ∀ (ops : List Operation) (job : Job) (prevEnd : Nat) (ops' : List Operation) (job' : Job),
      scheduleJobOps pt st job prevEnd ops = .ok (ops', job') →
      (ops.map Operation.operation_id).Nodup →
      (∀ op ∈ ops, timingAt job op.operation_id = none) →
      ops'.map Operation.operation_id = ops.map Operation.operation_id ∧
      (∀ s, s ∉ ops.map Operation.operation_id → timingAt job' s = timingAt job s) ∧
      (∀ op0, ops.head? = some op0 → ∀ t, timingAt job' op0.operation_id = some t →
        prevEnd ≤ t.start) ∧
      List.Chain' (fun o1 o2 => pairOK job' o1 o2 = true) ops' := by
  intro ops
  induction ops with
  | nil =>
    intro job prevEnd ops' job' h hnd hclean
    unfold scheduleJobOps at h
    have h1 : ([] : List Operation) = ops' := congrArg Prod.fst (Except.ok.inj h)
    have h2 : job = job' := congrArg Prod.snd (Except.ok.inj h)
    subst h2
    rw [← h1]
    exact ⟨rfl, fun s _ => rfl, fun op0 h0 => by simp at h0, List.chain'_nil⟩
  | cons op rest ih =>
    intro job prevEnd ops' job' h hnd hclean
    rw [List.map_cons] at hnd
    have hnd' := List.nodup_cons.mp hnd
    have hopnotin : op.operation_id ∉ rest.map Operation.operation_id := hnd'.1
    have hndrest : (rest.map Operation.operation_id).Nodup := hnd'.2
    unfold scheduleJobOps at h
    rcases hassign : assign_job_to_machine job op pt st prevEnd with e | r
    · rw [hassign] at h
      dsimp only at h
      exact absurd h (by simp)
    rw [hassign] at h
    rcases r with _ | ⟨op1, job1⟩
    · -- machine selector returned None at this stage
      dsimp only at h
      rcases hrec : scheduleJobOps pt st job prevEnd rest with e | pr
      · rw [hrec] at h
        dsimp only at h
        exact absurd h (by simp)
      obtain ⟨rest', jj⟩ := pr
      rw [hrec] at h
      dsimp only at h
      have h1 : op :: rest' = ops' := congrArg Prod.fst (Except.ok.inj h)
      have h2 : jj = job' := congrArg Prod.snd (Except.ok.inj h)
      subst jj
      subst h1
      obtain ⟨hids, hframe, hhead, hchain⟩ := ih job prevEnd rest' job' hrec hndrest
        (fun o ho => hclean o (List.mem_cons_of_mem op ho))
      have hjobop : timingAt job' op.operation_id = none := by
        rw [hframe op.operation_id hopnotin]
        exact hclean op (List.mem_cons_self op rest)
      refine ⟨by simp [hids], ?_, ?_, ?_⟩
      · intro s hs
        have hs1 : s ∉ rest.map Operation.operation_id := fun hc => hs (by simp [hc])
        exact hframe s hs1
      · intro op0 h0 t ht
        have hop0 : op = op0 := by simpa using h0
        subst hop0
        rw [hjobop] at ht
        exact absurd ht (by simp)
      · rcases rest' with _ | ⟨y, ys⟩
        · exact List.chain'_singleton op
        · refine List.chain'_cons.mpr ⟨?_, hchain⟩
          unfold pairOK
          rw [hjobop]
    · -- this stage succeeded
      dsimp only at h
      rcases htim : timingAt job1 op.operation_id with _ | t0
      · rw [htim] at h
        dsimp only at h
        exact absurd h (by simp)
      rw [htim] at h
      dsimp only at h
      rcases hrec : scheduleJobOps pt st job1 t0.endTime rest with e | pr
      · rw [hrec] at h
        dsimp only at h
        exact absurd h (by simp)
      obtain ⟨rest', jj⟩ := pr
      rw [hrec] at h
      dsimp only at h
      have h1 : op1 :: rest' = ops' := congrArg Prod.fst (Except.ok.inj h)
      have h2 : jj = job' := congrArg Prod.snd (Except.ok.inj h)
      subst jj
      subst h1
      obtain ⟨idx, selected, b, setup, ts, d, hfind, hsetup, hts, htf, hj, ho⟩ :=
        assign_ok_some_extract job op pt st prevEnd op1 job1 hassign
      have hop1id : op1.operation_id = op.operation_id := by rw [ho]
      have hjob1op : timingAt job1 op.operation_id = some
          (Timing.mk (max (selected.cumulative_time + setup) prevEnd)
            (max (selected.cumulative_time + setup) prevEnd + d) setup) := by
        rw [hj]
        exact lookup_ainsert_self op.operation_id _ job.operation_times
      have ht0 : t0 = Timing.mk (max (selected.cumulative_time + setup) prevEnd)
          (max (selected.cumulative_time + setup) prevEnd + d) setup :=
        Option.some.inj (htim.symm.trans hjob1op)
      have hcleanrest : ∀ o ∈ rest, timingAt job1 o.operation_id = none := by
        intro o ho
        have hne : o.operation_id ≠ op.operation_id := by
          intro hc
          exact hopnotin (hc ▸ List.mem_map.mpr ⟨o, ho, rfl⟩)
        rw [hj]
        show List.lookup o.operation_id
          (ainsert op.operation_id _ job.operation_times) = none
        rw [lookup_ainsert_ne _ _ _ _ hne]
        exact hclean o (List.mem_cons_of_mem op ho)
      obtain ⟨hids, hframe, hhead, hchain⟩ := ih job1 t0.endTime rest' job' hrec hndrest
        hcleanrest
      have hjob'op : timingAt job' op.operation_id = some t0 := by
        rw [hframe op.operation_id hopnotin, hjob1op, ht0]
      refine ⟨by simp [hop1id, hids], ?_, ?_, ?_⟩
      · intro s hs
        have hs1 : s ∉ rest.map Operation.operation_id := fun hc => hs (by simp [hc])
        have hs2 : s ≠ op.operation_id := fun hc => hs (by simp [hc])
        rw [hframe s hs1, hj]
        show List.lookup s (ainsert op.operation_id _ job.operation_times) = _
        rw [lookup_ainsert_ne _ _ _ _ hs2]
        rfl
      · intro op0 h0 t ht
        have hop0 : op = op0 := by simpa using h0
        subst hop0
        rw [hjob'op] at ht
        rw [← Option.some.inj ht, ht0]
        exact le_max_right _ _
      · rcases hrest' : rest' with _ | ⟨y, ys⟩
        · exact List.chain'_singleton op1
        · subst hrest'
          refine List.chain'_cons.mpr ⟨?_, hchain⟩
          unfold pairOK
          rw [hop1id, hjob'op]
          rcases hby : timingAt job' y.operation_id with _ | tb
          · rfl
          · rcases hrestc : rest with _ | ⟨r0, rs⟩
            · subst hrestc
              simp at hids
            · subst hrestc
              have hyr0 : y.operation_id = r0.operation_id := by
                simp only [List.map_cons, List.cons.injEq] at hids
                exact hids.1
              have hle : t0.endTime ≤ tb.start := by
                refine hhead r0 rfl tb ?_
                rw [← hyr0]
                exact hby
              exact decide_eq_true hle
  
/-- The outer loop: stage ids are preserved, and every scheduled job's
record sequence satisfies the adjacent-stage precedence chain over the
final stage list. -/
theorem scheduleJobsLoop_chain (pt : ProcTable) (st : SetupTable) :
    ∀ (jobsIn : List Job) (ops ops' : List Operation) (jobs' : List Job),
      scheduleJobsLoop pt st ops jobsIn = .ok (ops', jobs') →
      (ops.map Operation.operation_id).Nodup →
      (∀ j ∈ jobsIn, j.operation_times = []) →
      ops'.map Operation.operation_id = ops.map Operation.operation_id ∧
      ∀ j' ∈ jobs', List.Chain' (fun o1 o2 => pairOK j' o1 o2 = true) ops' := by
  intro jobsIn
  induction jobsIn with
  | nil =>
    intro ops ops' jobs' h hnd hclean
    unfold scheduleJobsLoop at h
    have h1 : ops = ops' := congrArg Prod.fst (Except.ok.inj h)
    have h2 : ([] : List Job) = jobs' := congrArg Prod.snd (Except.ok.inj h)
    subst h1
    rw [← h2]
    exact ⟨rfl, by simp⟩
  | cons j js ih =>
    intro ops ops' jobs' h hnd hclean
    unfold scheduleJobsLoop at h
    rcases hops : scheduleJobOps pt st j 0 ops with e | pr
    · rw [hops] at h
      dsimp only at h
      exact absurd h (by simp)
    obtain ⟨ops1, j1⟩ := pr
    rw [hops] at h
    dsimp only at h
    rcases hloop : scheduleJobsLoop pt st ops1 js with e | pr2
    · rw [hloop] at h
      dsimp only at h
      exact absurd h (by simp)
    obtain ⟨ops2, js2⟩ := pr2
    rw [hloop] at h
    dsimp only at h
    have h1 : ops2 = ops' := congrArg Prod.fst (Except.ok.inj h)
    have h2 : j1 :: js2 = jobs' := congrArg Prod.snd (Except.ok.inj h)
    subst h1
    have hcleanop : ∀ op ∈ ops, timingAt j op.operation_id = none := by
      intro op hop
      unfold timingAt
      rw [hclean j (List.mem_cons_self j js)]
      rfl
    obtain ⟨hids1, _, _, hchain1⟩ :=
      scheduleJobOps_chain pt st ops j 0 ops1 j1 hops hnd hcleanop
    have hnd1 : (ops1.map Operation.operation_id).Nodup := by
      rw [hids1]
      exact hnd
    obtain ⟨hids2, hchains⟩ := ih ops1 ops2 js2 hloop hnd1
      (fun o ho => hclean o (List.mem_cons_of_mem j ho))
    refine ⟨by rw [hids2, hids1], ?_⟩
    intro j' hj'
    rw [← h2] at hj'
    rcases List.mem_cons.mp hj' with hj' | hj'
    · subst hj'
      exact chain_pairOK_of_ids j' ops1 ops2 hids2.symm hchain1
    · exact hchains j' hj'

/-- Claim C6 CONFIRMED: after a completed scheduling run on a fresh job
catalogue (no pre-existing timing records) over stages with distinct
ids, every job's records satisfy `end[k] ≤ start[k+1]` for every pair of
adjacent stages (in the scheduler's stage order) at which the job has
records. -/
theorem claim_C6 (jobs : List Job) (operations : List Operation) (pt : ProcTable)
    (st : SetupTable) (rule : String) (ops' : List Operation) (jobs' : List Job)
    (hclean : ∀ j ∈ jobs, j.operation_times = [])
    (hnd : (operations.map Operation.operation_id).Nodup)
    (hrun : schedule_all_jobs jobs operations pt st rule = .ok (ops', jobs')) :
    ∀ j' ∈ jobs', List.Chain' (fun o1 o2 => pairOK j' o1 o2 = true) ops' := by
  unfold schedule_all_jobs at hrun
  rcases hsel : (if rule == "SPT" then apply_SPT_rule jobs pt
      else if rule == "LPT" then apply_LPT_rule jobs pt
      else Except.error SchedError.invalidRule) with e | sorted_jobs
  · rw [hsel] at hrun
    dsimp only at hrun
    exact absurd hrun (by simp)
  · rw [hsel] at hrun
    dsimp only at hrun
    have hperm := ruleSort_perm jobs pt rule sorted_jobs hsel
    have hcleansorted : ∀ j ∈ sorted_jobs, j.operation_times = [] :=
      fun j hj => hclean j (hperm.mem_iff.mp hj)
    have hndsorted : ((List.insertionSort
        (fun a b : Operation => strLe a.operation_id b.operation_id = true)
        operations).map Operation.operation_id).Nodup := by
      refine (List.Perm.nodup_iff ?_).mpr hnd
      exact (List.perm_insertionSort _ operations).map Operation.operation_id
    exact (scheduleJobsLoop_chain pt st sorted_jobs _ ops' jobs' hrun hndsorted
      hcleansorted).2

/-- Witness for claim C6 on a concrete two-stage run: job A is recorded
[0,2] at OP_1 and [2,5] at OP_2, and end[OP_1] = 2 ≤ 2 = start[OP_2]. -/
theorem claim_C6_witness :
    List.Chain' (fun o1 o2 =>
      pairOK ⟨"A", 1, [("OP_1", ⟨0, 2, 0⟩), ("OP_2", ⟨2, 5, 0⟩)]⟩ o1 o2 = true)
      [⟨"OP_1", [⟨"M_1", ["A"], [⟨"A", 1, [("OP_1", ⟨0, 2, 0⟩)]⟩], 2⟩]⟩,
       ⟨"OP_2", [⟨"M_2", ["A"],
         [⟨"A", 1, [("OP_1", ⟨0, 2, 0⟩), ("OP_2", ⟨2, 5, 0⟩)]⟩], 5⟩]⟩] :=
  claim_C6 (create_job_list [("A", 1)])
    (create_operations [("OP_1", [("M_1", ["A"])]), ("OP_2", [("M_2", ["A"])])])
    [("OP_1", [("M_1", [2])]), ("OP_2", [("M_2", [3])])] [("A", [("A", 0)])] "SPT"
    [⟨"OP_1", [⟨"M_1", ["A"], [⟨"A", 1, [("OP_1", ⟨0, 2, 0⟩)]⟩], 2⟩]⟩,
     ⟨"OP_2", [⟨"M_2", ["A"],
       [⟨"A", 1, [("OP_1", ⟨0, 2, 0⟩), ("OP_2", ⟨2, 5, 0⟩)]⟩], 5⟩]⟩]
    [⟨"A", 1, [("OP_1", ⟨0, 2, 0⟩), ("OP_2", ⟨2, 5, 0⟩)]⟩]
    (by decide) (by decide) (by decide)
    ⟨"A", 1, [("OP_1", ⟨0, 2, 0⟩), ("OP_2", ⟨2, 5, 0⟩)]⟩ (by decide)

/-! ## Claim C10 (restored): the A vs non-A duration distinction -/

/-- Claim C10 CONFIRMED: for any job type other than the literal "A",
a duration list with more than one element always yields its second
element — both in the dispatch-rule total (`calculate_total_processing_time`,
lines 47-52, via `timeFor`) and in the duration charged at assignment
(`assign_job_to_machine`, lines 123-127, which calls the same `timeFor`)
— and any two non-"A" types are treated identically, so no per-type
lookup beyond the A/non-A distinction happens. -/
theorem claim_C10 (t1 t2 : String) (h1 : t1 ≠ "A") (h2 : t2 ≠ "A") :
    (∀ machine_times : List Nat, 1 < machine_times.length →
      timeFor t1 machine_times = machine_times[1]?) ∧
    (∀ machine_times : List Nat, timeFor t1 machine_times = timeFor t2 machine_times) ∧
    (∀ pt : ProcTable,
      calculate_total_processing_time t1 pt = calculate_total_processing_time t2 pt) := by
  have hb1 : (t1 == "A") = false := beq_eq_false_iff_ne.mpr h1
  have hb2 : (t2 == "A") = false := beq_eq_false_iff_ne.mpr h2
  have htf : ∀ machine_times : List Nat,
      timeFor t1 machine_times = timeFor t2 machine_times := by
    intro ts
    simp [timeFor, hb1, hb2]
  refine ⟨?_, htf, ?_⟩
  · intro ts hts
    have hne : (ts.length == 1) = false := by
      simp only [beq_eq_false_iff_ne]
      omega
    simp [timeFor, hne, hb1]
  · intro pt
    have hsm : ∀ (ms : List (String × List Nat)) (mn : ℕ∞),
        stageMin t1 ms mn = stageMin t2 ms mn := by
      intro ms
      induction ms with
      | nil => intro mn; rfl
      | cons hd tl ih =>
        intro mn
        simp only [stageMin, htf hd.2]
        cases timeFor t2 hd.2 with
        | none => rfl
        | some t => exact ih _
    have hgo : ∀ (p : ProcTable) (acc : ℕ∞), calcTotalGo t1 p acc = calcTotalGo t2 p acc := by
      intro p
      induction p with
      | nil => intro acc; rfl
      | cons hd tl ih =>
        intro acc
        simp only [calcTotalGo, hsm hd.2 ⊤]
        cases stageMin t2 hd.2 ⊤ with
        | ok mn => exact ih _
        | error e => rfl
    exact hgo pt 0

/-- Witness for claim C10 at the concrete types "B" and "C". -/
theorem claim_C10_witness :
    timeFor "B" [3, 6] = ([3, 6] : List Nat)[1]? ∧
    calculate_total_processing_time "B" c7PT = calculate_total_processing_time "C" c7PT :=
  ⟨(claim_C10 "B" "C" (by decide) (by decide)).1 [3, 6] (by decide),
   (claim_C10 "B" "C" (by decide) (by decide)).2.2 c7PT⟩

/-! ## Claim C4 (restored): the dispatch-rule total processing time -/

def c4Ops : List Operation := create_operations [("OP_1", [("M_1", ["A"]), ("M_2", ["B"])])]

def c4PT : ProcTable := [("OP_1", [("M_1", [10]), ("M_2", [1])])]

/-- Claim C4 is FALSE: `calculate_total_processing_time` minimises over
*all* machines listed in the stage's duration table, ignoring
eligibility.  With M_1 the only machine eligible for type A (duration
10) and the ineligible M_2 listed with duration 1, the code computes 1
while the claimed eligible-machine minimum is 10. -/
theorem claim_C4_counterexample :
    calculate_total_processing_time "A" c4PT = .ok 1 ∧
    claimedTotalProcessingTime "A" c4Ops c4PT = 10 ∧
    (Except.ok (1 : ℕ∞) : Except SchedError ℕ∞) ≠ .ok 10 := by
  refine ⟨by decide, by decide, by decide⟩

/-- The per-machine durations of one stage of the duration table for a
job type; `none` when some entry is too short (Python `IndexError`). -/
def stageTimes (job_type : String) : List (String × List Nat) → Option (List Nat)
  | [] => some []
  | m :: rest =>
    match timeFor job_type m.2, stageTimes job_type rest with
    | some t, some ts => some (t :: ts)
    | _, _ => none

/-- The minimum of a duration list in `ℕ∞` (`⊤` when empty, mirroring
the untouched `float('inf')`). -/
def natsMin (ts : List Nat) : ℕ∞ :=
  ts.foldr (fun (t : Nat) (m : ℕ∞) => min (t : ℕ∞) m) ⊤

/-- The amended total of claim C4: the sum, over the stages present in
the duration table, of the minimum duration for the job's type across
all machines listed for that stage — eligibility plays no role. -/
def tableMinTotal (job_type : String) : ProcTable → Except SchedError ℕ∞
  | [] => .ok 0
  | (_, machines) :: rest =>
    match stageTimes job_type machines with
    | none => .error .indexError
    | some ts =>
      match tableMinTotal job_type rest with
      | .ok total => .ok (natsMin ts + total)
      | .error e => .error e

theorem natsMin_cons (t : Nat) (ts : List Nat) :
    natsMin (t :: ts) = min (t : ℕ∞) (natsMin ts) := rfl

theorem stageMin_eq_stageTimes (job_type : String) (ms : List (String × List Nat)) :
    ∀ mn : ℕ∞, stageMin job_type ms mn =
      match stageTimes job_type ms with
      | none => .error .indexError
      | some ts => .ok (min mn (natsMin ts)) := by
  induction ms with
  | nil => intro mn; simp [stageMin, stageTimes, natsMin, min_eq_left le_top]
  | cons m rest ih =>
    intro mn
    cases htf : timeFor job_type m.2 with
    | none => simp only [stageMin, stageTimes, htf]
    | some t =>
      simp only [stageMin, stageTimes, htf]
      rw [ih (min mn (t : ℕ∞))]
      cases hst : stageTimes job_type rest with
      | none => rfl
      | some ts =>
        dsimp only
        rw [natsMin_cons, min_assoc]

theorem calcTotalGo_eq_tableMinTotal (job_type : String) (p : ProcTable) :
    ∀ acc : ℕ∞, calcTotalGo job_type p acc =
      (tableMinTotal job_type p).map (fun x => acc + x) := by
  induction p with
  | nil => intro acc; simp [calcTotalGo, tableMinTotal, Except.map]
  | cons stage rest ih =>
    intro acc
    obtain ⟨sid, machines⟩ := stage
    simp only [calcTotalGo, tableMinTotal]
    rw [stageMin_eq_stageTimes]
    cases hst : stageTimes job_type machines with
    | none => rfl
    | some ts =>
      simp only [min_eq_right le_top]
      rw [ih (acc + natsMin ts)]
      cases tableMinTotal job_type rest with
      | error e => rfl
      | ok total => simp [Except.map, add_assoc]

/-- Claim C4 amended: for every job type and duration table, the
dispatch-rule sort key equals the sum over the table's stages of the
minimum duration for the job's type across *all machines listed in that
stage's duration table*, regardless of eligibility (with the per-type
selection of `timeFor`: the single entry, else first entry for type A,
second entry otherwise). -/
theorem claim_C4 (job_type : String) (pt : ProcTable) :
    calculate_total_processing_time job_type pt = tableMinTotal job_type pt := by
  unfold calculate_total_processing_time
  rw [calcTotalGo_eq_tableMinTotal]
  cases tableMinTotal job_type pt with
  | error e => rfl
  | ok total => simp [Except.map]
